import Mathlib

/-!
Verification of the cos-tool query transformation pipeline and rule validator.

The definitions below are shallow embeddings of the Go sources:
* `pkg/tool/promql_transform.go` (and its variable-handling revision) — PromQL
  transformer: structural-position check, placeholder codec, matcher injection;
* `pkg/tool/logql_transform.go` — LogQL transformer and placeholder codec;
* `pkg/lokiruler/compat.go` — rule-group validator.

Strings are modelled as `List Char`; Go maps are modelled as association
lists (with explicit iteration-order lists where Go's map iteration order
is observable).  External collaborators (the PromQL/LogQL grammars, the
YAML decoder, the template engine) are taken as parameters (oracles) of the
embedded functions, exactly at the interfaces the Go code uses them.
-/

set_option maxHeartbeats 1000000

namespace CosTool

/-! ## Matchers and injection (promql_transform.go / logql_transform.go) -/

/-- Matcher operator, from `prometheus/model/labels` (`MatchEqual`,
`MatchNotEqual`, `MatchRegexp`, `MatchNotRegexp`). -/
inductive MatchType where
  | equal : MatchType
  | notEqual : MatchType
  | regexMatch : MatchType
  | regexNotMatch : MatchType
  deriving DecidableEq, Repr

/-- A label matcher `{Type, Name, Value}` (`labels.Matcher`). -/
structure Matcher where
  type : MatchType
  name : String
  value : String
  deriving DecidableEq, Repr

namespace PromQL

/-- `PromQL.injectLabelMatcher` (promql_transform.go lines 66-87): for each
`(key, val)` of the injection map — iterated in Go map iteration order,
here made explicit as the list `order` — if some matcher of the selector
already has name `key` the pair is skipped, otherwise an Equal matcher
`{key, val}` is appended to `e.LabelMatchers` (the growing list). -/
def injectLabelMatcher (order : List (String × String)) (ms : List Matcher) : List Matcher :=
  order.foldl
    (fun acc kv =>
      if acc.any (fun m => m.name == kv.1) then acc
      else acc ++ [⟨MatchType.equal, kv.1, kv.2⟩])
    ms

end PromQL

namespace LogQL

/-- `LogQL.injectLabelMatcher` (logql_transform.go lines 72-93): walks the
pre-sorted key list; keys whose name already occurs among the selector's
existing matchers are skipped; the remaining keys become Equal matchers
collected in `appendMatchers` and appended after the existing matchers by
`e.AppendMatchers` once the loop is over. -/
def injectLabelMatcher (sortedKeys : List String) (mmap : List (String × String))
    (ms : List Matcher) : List Matcher :=
  ms ++ (sortedKeys.filter
            (fun k => !(ms.any (fun m => m.name == k)))).map
          (fun k => ⟨MatchType.equal, k, ((mmap.lookup k).getD "")⟩)

/-- The key list built by `LogQL.Transform` (logql_transform.go lines 44-50):
the injection map's keys, sorted with `sort.Strings`. -/
def sortedMatcherKeys (order : List (String × String)) : List String :=
  (order.map Prod.fst).mergeSort (fun a b => a ≤ b)

end LogQL

/-- Equal matcher from an injection pair. -/
def mkEqual (kv : String × String) : Matcher := ⟨MatchType.equal, kv.1, kv.2⟩

/-- Closed form of `PromQL.injectLabelMatcher`: because all keys of a Go map
are distinct, the check against the growing list never hits a matcher
appended earlier in the same call, so the appended suffix is exactly the
pairs whose name is absent from the pre-existing matchers, in iteration
order. -/
theorem PromQL.injectLabelMatcher_eq_append (order : List (String × String))
    (ms : List Matcher) (hnd : (order.map Prod.fst).Nodup) :
    PromQL.injectLabelMatcher order ms =
      ms ++ (order.filter (fun kv => !(ms.any (fun m => m.name == kv.1)))).map mkEqual := by
  induction order generalizing ms with
  | nil => simp [PromQL.injectLabelMatcher]
  | cons kv rest ih =>
    simp only [List.map_cons, List.nodup_cons] at hnd
    obtain ⟨hk, hnd'⟩ := hnd
    by_cases h : ms.any (fun m => m.name == kv.1)
    · have hstep : PromQL.injectLabelMatcher (kv :: rest) ms = PromQL.injectLabelMatcher rest ms := by
        simp only [PromQL.injectLabelMatcher, List.foldl_cons, h, if_true]
      rw [hstep, ih ms hnd']
      simp [List.filter_cons, h]
    · have hstep : PromQL.injectLabelMatcher (kv :: rest) ms =
          PromQL.injectLabelMatcher rest (ms ++ [mkEqual kv]) := by
        simp only [PromQL.injectLabelMatcher, List.foldl_cons, h, if_false, Bool.false_eq_true,
          mkEqual]
      rw [hstep, ih _ hnd']
      have hfilter : (rest.filter (fun kv' => !((ms ++ [mkEqual kv]).any (fun m => m.name == kv'.1)))) =
          (rest.filter (fun kv' => !(ms.any (fun m => m.name == kv'.1)))) := by
        apply List.filter_congr
        intro kv' hkv'
        have hne : kv.1 ≠ kv'.1 := by
          intro hEq
          exact hk (hEq ▸ (List.mem_map.mpr ⟨kv', hkv', rfl⟩))
        simp only [List.any_append, List.any_cons, List.any_nil, mkEqual, Bool.or_false,
          Bool.not_or, Bool.not_eq_true']
        cases hms : ms.any (fun m => m.name == kv'.1) <;> simp [hne]
      rw [hfilter]
      simp [List.filter_cons, h]

/-- Association-list lookup finds the value of a present key when the key
list is duplicate-free (the situation of a Go map). -/
theorem lookup_eq_of_mem {order : List (String × String)} {kv : String × String}
    (hnd : (order.map Prod.fst).Nodup) (hmem : kv ∈ order) :
    order.lookup kv.1 = some kv.2 := by
  induction order with
  | nil => cases hmem
  | cons hd tl ih =>
    simp only [List.map_cons, List.nodup_cons] at hnd
    rcases List.mem_cons.mp hmem with rfl | h
    · simp [List.lookup]
    · have hne : kv.1 ≠ hd.1 :=
        fun hEq => hnd.1 (hEq ▸ List.mem_map.mpr ⟨kv, h, rfl⟩)
      cases hd with
      | mk k v =>
        have hbeq : (kv.1 == k) = false := by simpa using hne
        simp [List.lookup, hbeq, ih hnd.2 h]

/-- After a PromQL injection every key of the injection order has a matcher
with its name on the selector. -/
theorem names_present_promQL (order : List (String × String)) (ms : List Matcher)
    (hnd : (order.map Prod.fst).Nodup) {k : String} (hk : k ∈ order.map Prod.fst) :
    ∃ m ∈ PromQL.injectLabelMatcher order ms, m.name = k := by
  rw [PromQL.injectLabelMatcher_eq_append order ms hnd]
  obtain ⟨kv, hkv, rfl⟩ := List.mem_map.mp hk
  by_cases h : ms.any (fun m => m.name == kv.1)
  · obtain ⟨m, hm, hname⟩ := List.any_eq_true.mp h
    exact ⟨m, List.mem_append_left _ hm, by simpa using hname⟩
  · refine ⟨mkEqual kv, List.mem_append_right _ ?_, rfl⟩
    exact List.mem_map.mpr ⟨kv, List.mem_filter.mpr ⟨hkv, by simpa using h⟩, rfl⟩

/-- After a LogQL injection every key of the sorted key list has a matcher
with its name on the selector. -/
theorem names_present_logQL (sk : List String) (mm : List (String × String))
    (ms : List Matcher) {k : String} (hk : k ∈ sk) :
    ∃ m ∈ LogQL.injectLabelMatcher sk mm ms, m.name = k := by
  unfold LogQL.injectLabelMatcher
  by_cases h : ms.any (fun m => m.name == k)
  · obtain ⟨m, hm, hname⟩ := List.any_eq_true.mp h
    exact ⟨m, List.mem_append_left _ hm, by simpa using hname⟩
  · refine ⟨⟨MatchType.equal, k, ((mm.lookup k).getD "")⟩, List.mem_append_right _ ?_, rfl⟩
    exact List.mem_map.mpr ⟨k, List.mem_filter.mpr ⟨hk, by simpa using h⟩, rfl⟩

/-- A PromQL injection whose keys are all already present changes nothing. -/
theorem inject_nothing_promQL (order : List (String × String)) (ms : List Matcher)
    (h : ∀ kv ∈ order, ∃ m ∈ ms, m.name = kv.1) :
    PromQL.injectLabelMatcher order ms = ms := by
  induction order with
  | nil => rfl
  | cons kv rest ih =>
    have hany : ms.any (fun m => m.name == kv.1) = true := by
      obtain ⟨m, hm, hname⟩ := h kv (List.mem_cons_self _ _)
      exact List.any_eq_true.mpr ⟨m, hm, by simpa using hname⟩
    have hstep : PromQL.injectLabelMatcher (kv :: rest) ms = PromQL.injectLabelMatcher rest ms := by
      simp only [PromQL.injectLabelMatcher, List.foldl_cons, hany, if_true]
    rw [hstep]
    exact ih (fun kv' h' => h kv' (List.mem_cons_of_mem _ h'))

/-- A LogQL injection whose keys are all already present changes nothing. -/
theorem inject_nothing_logQL (sk : List String) (mm : List (String × String))
    (ms : List Matcher) (h : ∀ k ∈ sk, ∃ m ∈ ms, m.name = k) :
    LogQL.injectLabelMatcher sk mm ms = ms := by
  unfold LogQL.injectLabelMatcher
  have : sk.filter (fun k => !(ms.any (fun m => m.name == k))) = [] := by
    refine List.filter_eq_nil_iff.mpr (fun k hk => ?_)
    obtain ⟨m, hm, hname⟩ := h k hk
    simp [List.any_eq_true]
    exact ⟨m, hm, hname⟩
  rw [this]
  simp

/-- Claim C4: per Selector Node and injection pair, a pair whose name already
has a matcher (any operator) is skipped and the pre-existing matchers —
values included — are retained unchanged; a pair whose name is absent is
appended as a new Equal matcher; no matcher is removed or overwritten
(the original list is a prefix of the result), in both dialects
(promql_transform.go lines 66-87, logql_transform.go lines 72-93). -/
theorem injection_policy (order : List (String × String)) (ms : List Matcher)
    (hnd : (order.map Prod.fst).Nodup) :
    (ms <+: PromQL.injectLabelMatcher order ms) ∧
    (ms <+: LogQL.injectLabelMatcher (LogQL.sortedMatcherKeys order) order ms) ∧
    (∀ kv ∈ order, (∃ m ∈ ms, m.name = kv.1) →
      ((PromQL.injectLabelMatcher order ms).filter (fun m => m.name == kv.1) =
         ms.filter (fun m => m.name == kv.1) ∧
       (LogQL.injectLabelMatcher (LogQL.sortedMatcherKeys order) order ms).filter
           (fun m => m.name == kv.1) =
         ms.filter (fun m => m.name == kv.1))) ∧
    (∀ kv ∈ order, (¬∃ m ∈ ms, m.name = kv.1) →
      (mkEqual kv ∈ PromQL.injectLabelMatcher order ms ∧
       mkEqual kv ∈ LogQL.injectLabelMatcher (LogQL.sortedMatcherKeys order) order ms)) := by
  refine ⟨?_, ?_, ?_, ?_⟩
  · rw [PromQL.injectLabelMatcher_eq_append order ms hnd]
    exact List.prefix_append _ _
  · exact List.prefix_append _ _
  · intro kv _ hex
    have hsuffix : ∀ (l : List (String × String)),
        ((l.filter (fun kv' => !(ms.any (fun m => m.name == kv'.1)))).map mkEqual).filter
          (fun m => m.name == kv.1) = [] := by
      intro l
      refine List.filter_eq_nil_iff.mpr (fun m hm => ?_)
      obtain ⟨kv', hkv', rfl⟩ := List.mem_map.mp hm
      have hnot := (List.mem_filter.mp hkv').2
      intro hname
      obtain ⟨m₀, hm₀, hname₀⟩ := hex
      have : kv'.1 = kv.1 := by simpa [mkEqual] using hname
      rw [Bool.not_eq_true', List.any_eq_false] at hnot
      exact hnot m₀ hm₀ (by simp [this, hname₀])
    constructor
    · rw [PromQL.injectLabelMatcher_eq_append order ms hnd, List.filter_append, hsuffix order,
        List.append_nil]
    · unfold LogQL.injectLabelMatcher
      rw [List.filter_append]
      have hsk : (((LogQL.sortedMatcherKeys order).filter
          (fun k => !(ms.any (fun m => m.name == k)))).map
            (fun k => (⟨MatchType.equal, k, ((order.lookup k).getD "")⟩ : Matcher))).filter
          (fun m => m.name == kv.1) = [] := by
        refine List.filter_eq_nil_iff.mpr (fun m hm => ?_)
        obtain ⟨k, hk, rfl⟩ := List.mem_map.mp hm
        have hnot := (List.mem_filter.mp hk).2
        intro hname
        obtain ⟨m₀, hm₀, hname₀⟩ := hex
        have : k = kv.1 := by simpa using hname
        rw [Bool.not_eq_true', List.any_eq_false] at hnot
        exact hnot m₀ hm₀ (by simp [this, hname₀])
      rw [hsk, List.append_nil]
  · intro kv hkv hnotex
    have hany : ms.any (fun m => m.name == kv.1) = false := by
      rw [List.any_eq_false]
      intro m hm hname
      exact hnotex ⟨m, hm, by simpa using hname⟩
    constructor
    · rw [PromQL.injectLabelMatcher_eq_append order ms hnd]
      refine List.mem_append_right _ ?_
      exact List.mem_map.mpr ⟨kv, List.mem_filter.mpr ⟨hkv, by simp [hany]⟩, rfl⟩
    · unfold LogQL.injectLabelMatcher
      refine List.mem_append_right _ ?_
      have hkmem : kv.1 ∈ LogQL.sortedMatcherKeys order :=
        ((List.mergeSort_perm (order.map Prod.fst) _).mem_iff).mpr
          (List.mem_map.mpr ⟨kv, hkv, rfl⟩)
      refine List.mem_map.mpr ⟨kv.1, List.mem_filter.mpr ⟨hkmem, by simp [hany]⟩, ?_⟩
      rw [lookup_eq_of_mem hnd hkv]
      rfl

/-- Claim C4 witness at the spec scenario: selector `up` already carries
`cool="breeze"` and `hot="sunrays"`; injecting `cool=stuff, dance=macarena`
keeps `cool="breeze"` and appends only `dance="macarena"`. -/
theorem injection_policy_witness :
    ([⟨MatchType.equal, "cool", "breeze"⟩, ⟨MatchType.equal, "hot", "sunrays"⟩] <+:
      PromQL.injectLabelMatcher [("cool", "stuff"), ("dance", "macarena")]
        [⟨MatchType.equal, "cool", "breeze"⟩, ⟨MatchType.equal, "hot", "sunrays"⟩]) ∧
    mkEqual ("dance", "macarena") ∈
      PromQL.injectLabelMatcher [("cool", "stuff"), ("dance", "macarena")]
        [⟨MatchType.equal, "cool", "breeze"⟩, ⟨MatchType.equal, "hot", "sunrays"⟩] := by
  have h := injection_policy [("cool", "stuff"), ("dance", "macarena")]
    [⟨MatchType.equal, "cool", "breeze"⟩, ⟨MatchType.equal, "hot", "sunrays"⟩] (by decide)
  refine ⟨h.1, (h.2.2.2 ("dance", "macarena") (by decide) ?_).1⟩
  decide

/-- Claim C5: injecting the same Injection Set twice — under any two
iteration orders of the same set, `o1` and `o2` — yields the same result as
injecting it once; already-present matchers are never duplicated, in both
dialects. -/
theorem injection_idempotent (o1 o2 : List (String × String)) (ms : List Matcher)
    (hnd : (o1.map Prod.fst).Nodup) (hperm : List.Perm o1 o2) :
    PromQL.injectLabelMatcher o2 (PromQL.injectLabelMatcher o1 ms) =
      PromQL.injectLabelMatcher o1 ms ∧
    LogQL.injectLabelMatcher (LogQL.sortedMatcherKeys o2) o2
        (LogQL.injectLabelMatcher (LogQL.sortedMatcherKeys o1) o1 ms) =
      LogQL.injectLabelMatcher (LogQL.sortedMatcherKeys o1) o1 ms := by
  constructor
  · refine inject_nothing_promQL _ _ (fun kv hkv => ?_)
    exact names_present_promQL o1 ms hnd
      (List.mem_map.mpr ⟨kv, hperm.mem_iff.mpr hkv, rfl⟩)
  · refine inject_nothing_logQL _ _ _ (fun k hk => ?_)
    have hk1 : k ∈ LogQL.sortedMatcherKeys o1 := by
      have h2 : k ∈ o2.map Prod.fst :=
        ((List.mergeSort_perm (o2.map Prod.fst) _).mem_iff).mp hk
      exact ((List.mergeSort_perm (o1.map Prod.fst) _).mem_iff).mpr
        ((hperm.map Prod.fst).mem_iff.mpr h2)
    exact names_present_logQL _ o1 ms hk1

/-- Claim C5 witness: injecting `{bar ↦ baz}` twice into a bare selector
adds `bar="baz"` exactly once, in both dialects. -/
theorem injection_idempotent_witness :
    PromQL.injectLabelMatcher [("bar", "baz")]
        (PromQL.injectLabelMatcher [("bar", "baz")] []) =
      PromQL.injectLabelMatcher [("bar", "baz")] [] ∧
    LogQL.injectLabelMatcher (LogQL.sortedMatcherKeys [("bar", "baz")]) [("bar", "baz")]
        (LogQL.injectLabelMatcher (LogQL.sortedMatcherKeys [("bar", "baz")]) [("bar", "baz")] []) =
      LogQL.injectLabelMatcher (LogQL.sortedMatcherKeys [("bar", "baz")]) [("bar", "baz")] [] :=
  injection_idempotent [("bar", "baz")] [("bar", "baz")] [] (by decide) (List.Perm.refl _)

/-- Claim C2 counterexample core: the PromQL injector ranges over the Go
matcher map directly, so two iteration orders of the same Injection Set
yield different matcher lists — the iteration order is not sorted before
injection (promql_transform.go lines 66-87 have no sorting step). -/
theorem promQL_injection_not_sorted :
    PromQL.injectLabelMatcher [("b", "1"), ("a", "2")] [] ≠
      PromQL.injectLabelMatcher [("a", "2"), ("b", "1")] [] := by
  decide

/-- Serialized form of one matcher, `name`, operator, quoted `value`
(`labels.Matcher.String`). -/
def matcherString (m : Matcher) : String :=
  m.name ++ (match m.type with
    | MatchType.equal => "="
    | MatchType.notEqual => "!="
    | MatchType.regexMatch => "=~"
    | MatchType.regexNotMatch => "!~") ++ "\"" ++ m.value ++ "\""

/-- Modelled from the spec: the PromQL dialect's printer (external
`parser.VectorSelector.String`) sorts the full matcher list of a node
lexicographically on every print; this is the serialized matcher list of
one selector. -/
def promQLPrintMatchers (ms : List Matcher) : List String :=
  (ms.map matcherString).mergeSort (fun a b => a ≤ b)

/-- Claim C2 (amended): the LogQL transformer sorts the injection keys
before injecting, so its behaviour is a function of the Injection Set
alone; the PromQL injector ranges over the map in unspecified order, but
the set of matchers it produces does not depend on that order, and the
PromQL printer's sorting of the serialized matchers makes the printed
output byte-identical across iteration orders of identical arguments. -/
theorem transform_deterministic (o1 o2 : List (String × String)) (ms : List Matcher)
    (hnd : (o1.map Prod.fst).Nodup) (hperm : List.Perm o1 o2) :
    promQLPrintMatchers (PromQL.injectLabelMatcher o1 ms) =
      promQLPrintMatchers (PromQL.injectLabelMatcher o2 ms) ∧
    LogQL.sortedMatcherKeys o1 = LogQL.sortedMatcherKeys o2 := by
  have hnd2 : (o2.map Prod.fst).Nodup := ((hperm.map Prod.fst).nodup_iff).mp hnd
  constructor
  · have hpermFiltered :
        List.Perm ((o1.filter (fun kv => !(ms.any (fun m => m.name == kv.1)))).map mkEqual)
          ((o2.filter (fun kv => !(ms.any (fun m => m.name == kv.1)))).map mkEqual) :=
      (hperm.filter _).map mkEqual
    have hpermStrings :
        List.Perm ((PromQL.injectLabelMatcher o1 ms).map matcherString)
          ((PromQL.injectLabelMatcher o2 ms).map matcherString) := by
      rw [PromQL.injectLabelMatcher_eq_append o1 ms hnd,
        PromQL.injectLabelMatcher_eq_append o2 ms hnd2]
      exact ((List.Perm.refl ms).append hpermFiltered).map matcherString
    exact List.eq_of_perm_of_sorted
      ((List.mergeSort_perm _ _).trans (hpermStrings.trans (List.mergeSort_perm _ _).symm))
      (List.sorted_mergeSort' _) (List.sorted_mergeSort' _)
  · exact List.eq_of_perm_of_sorted
      ((List.mergeSort_perm _ _).trans ((hperm.map Prod.fst).trans (List.mergeSort_perm _ _).symm))
      (List.sorted_mergeSort' _) (List.sorted_mergeSort' _)

/-- Claim C2 amended-claim witness: two iteration orders of the set
`{a ↦ 2, b ↦ 1}` print identically in the PromQL dialect and sort to the
same key list in the LogQL dialect. -/
theorem transform_deterministic_witness :
    promQLPrintMatchers (PromQL.injectLabelMatcher [("b", "1"), ("a", "2")] []) =
      promQLPrintMatchers (PromQL.injectLabelMatcher [("a", "2"), ("b", "1")] []) ∧
    LogQL.sortedMatcherKeys [("b", "1"), ("a", "2")] =
      LogQL.sortedMatcherKeys [("a", "2"), ("b", "1")] :=
  transform_deterministic [("b", "1"), ("a", "2")] [("a", "2"), ("b", "1")] []
    (by decide) (by decide)

/-! ## Character-level scanners for the Go regular expressions
(promql_transform.go variable handling, logql_transform.go) -/

/-- Go regexp `\w` (ASCII): letters, digits and underscore. -/
def isWordChar (c : Char) : Bool :=
  c.isAlphanum || c == '_'

/-- Go regexp `\s`: space, tab, newline, form feed, carriage return. -/
def isSpaceChar (c : Char) : Bool :=
  c == ' ' || c == '\t' || c == '\n' || c == '\x0c' || c == '\r'

/-- Scan up to the first `}`: `spanToBrace l = some (inner, after)` when
`l = inner ++ '}' :: after` with `inner` free of `}` (the `[^}]+\}` step of
the variable pattern, minus the nonemptiness condition). -/
def spanToBrace : List Char → Option (List Char × List Char)
  | [] => none
  | c :: rest =>
    if c = '}' then some ([], rest)
    else
      match spanToBrace rest with
      | some (inner, after) => some (c :: inner, after)
      | none => none

/-- Greedy scan of a `\w*` run: `spanWord l = (w, r)` with `l = w ++ r`,
`w` all word characters, and `r` not starting with one. -/
def spanWord : List Char → (List Char × List Char)
  | [] => ([], [])
  | c :: rest =>
    if isWordChar c then
      let p := spanWord rest
      (c :: p.1, p.2)
    else ([], c :: rest)

/-- Anchored match of the braced alternative `\{[^}]+\}` of the variable
pattern, applied to the text following `$` and `{`; the matched text
includes the `$` and the braces. -/
def matchBracedVar (rest2 : List Char) : Option (List Char × List Char) :=
  match spanToBrace rest2 with
  | some (inner, after) =>
    if inner.length = 0 then none
    else some ('$' :: '{' :: (inner ++ ['}']), after)
  | none => none

/-- Anchored match of the word alternative `\w+` of the variable pattern,
applied to the text following `$`. -/
def matchWordVar (rest : List Char) : Option (List Char × List Char) :=
  let p := spanWord rest
  if p.1.length = 0 then none
  else some ('$' :: p.1, p.2)

/-- Anchored match of the Grafana-variable pattern
`\$(?:\{[^}]+\}|\w+)` — `$name`, `${name}`, `${name:format}` — returning
the matched text and the remainder.  (The two Go sources list the two
alternatives in opposite orders; no input can match both — `{` is not a
word character — so the order is immaterial.) -/
def matchVar (l : List Char) : Option (List Char × List Char) :=
  if l.head? = some '$' then
    if l.tail.head? = some '{' then matchBracedVar l.tail.tail
    else matchWordVar l.tail
  else none

/-- Specification of `spanToBrace`. -/
theorem spanToBrace_spec {l inner after : List Char}
    (h : spanToBrace l = some (inner, after)) :
    l = inner ++ '}' :: after ∧ ∀ c ∈ inner, c ≠ '}' := by
  induction l generalizing inner with
  | nil => simp [spanToBrace] at h
  | cons c rest ih =>
    unfold spanToBrace at h
    by_cases hc : c = '}'
    · rw [if_pos hc] at h
      simp only [Option.some.injEq, Prod.mk.injEq] at h
      obtain ⟨rfl, rfl⟩ := h
      subst hc
      simp
    · rw [if_neg hc] at h
      match hrec : spanToBrace rest with
      | some (inner', after') =>
        rw [hrec] at h
        simp only [Option.some.injEq, Prod.mk.injEq] at h
        obtain ⟨rfl, rfl⟩ := h
        obtain ⟨heq, hfree⟩ := ih hrec
        refine ⟨by simp [heq], ?_⟩
        intro c' hc'
        rcases List.mem_cons.mp hc' with rfl | hmem
        · exact hc
        · exact hfree c' hmem
      | none => rw [hrec] at h; cases h

/-- Specification of `spanWord`. -/
theorem spanWord_spec (l : List Char) :
    l = (spanWord l).1 ++ (spanWord l).2 ∧
    (∀ c ∈ (spanWord l).1, isWordChar c) ∧
    (∀ c ∈ (spanWord l).2.head?, ¬isWordChar c) := by
  induction l with
  | nil => simp [spanWord]
  | cons c rest ih =>
    unfold spanWord
    by_cases hc : isWordChar c
    · simp only [hc, if_true]
      obtain ⟨heq, hword, hhead⟩ := ih
      refine ⟨by simpa using heq, ?_, by simpa using hhead⟩
      intro c' hc'
      rcases List.mem_cons.mp hc' with rfl | hmem
      · exact hc
      · exact hword c' hmem
    · simp [hc]

/-- A successful variable match splits the input; the match starts with `$`
and has at least two characters. -/
theorem matchVar_eq_append {l m r : List Char} (h : matchVar l = some (m, r)) :
    l = m ++ r ∧ 2 ≤ m.length ∧ m.head? = some '$' := by
  unfold matchVar at h
  by_cases hd : l.head? = some '$'
  · rw [if_pos hd] at h
    cases l with
    | nil => simp at hd
    | cons c rest =>
      have hc : c = '$' := by simpa using hd
      subst hc
      by_cases hd2 : rest.head? = some '{'
      · rw [List.tail_cons, if_pos hd2] at h
        cases rest with
        | nil => simp at hd2
        | cons c2 rest2 =>
          have hc2 : c2 = '{' := by simpa using hd2
          subst hc2
          simp only [List.tail_cons] at h
          unfold matchBracedVar at h
          match hspan : spanToBrace rest2 with
          | some (inner, after) =>
            rw [hspan] at h
            dsimp only at h
            by_cases hlen : inner.length = 0
            · rw [if_pos hlen] at h; cases h
            · rw [if_neg hlen] at h
              simp only [Option.some.injEq, Prod.mk.injEq] at h
              obtain ⟨rfl, rfl⟩ := h
              obtain ⟨heq, _⟩ := spanToBrace_spec hspan
              refine ⟨by simp [heq], by simp, rfl⟩
          | none => rw [hspan] at h; cases h
      · rw [List.tail_cons, if_neg hd2] at h
        unfold matchWordVar at h
        by_cases hlen : (spanWord rest).1.length = 0
        · rw [if_pos hlen] at h; cases h
        · rw [if_neg hlen] at h
          simp only [Option.some.injEq, Prod.mk.injEq] at h
          obtain ⟨rfl, rfl⟩ := h
          obtain ⟨heq, _, _⟩ := spanWord_spec rest
          refine ⟨by simp [← heq], by simp; omega, rfl⟩
  · rw [if_neg hd] at h; cases h

/-- A successful variable match consumes at least one character. -/
theorem matchVar_rest_lt {l m r : List Char} (h : matchVar l = some (m, r)) :
    r.length < l.length := by
  obtain ⟨heq, hlen, _⟩ := matchVar_eq_append h
  rw [heq, List.length_append]
  omega

/-! ## Placeholder allocation (the getPlaceholder closures of
replaceGrafanaVariables, logql_transform.go lines 123-150, and
replaceGrafanaVariablesPromQL) -/

/-- The `fmt.Sprintf` format verbs used for placeholders: `%d` (label
values, durations in PromQL, generic), `%ds` (LogQL durations),
`__v%d__` (PromQL metric-name components). -/
inductive PhFmt where
  | bare : PhFmt
  | seconds : PhFmt
  | metricV : PhFmt
  deriving DecidableEq, Repr

/-- Decimal digit character. -/
def digitChar (n : Nat) : Char := Char.ofNat (48 + n)

/-- Digit accumulator: `fuel` dominates the number of digits, so the
recursion is structural and reduces definitionally. -/
def natToDigitsCore : Nat → Nat → List Char → List Char
  | 0, _, acc => acc
  | fuel + 1, n, acc =>
    if n < 10 then digitChar n :: acc
    else natToDigitsCore fuel (n / 10) (digitChar (n % 10) :: acc)

/-- Decimal rendering of a natural number (`fmt.Sprintf` with `%d` on a
non-negative int). -/
def natToDigits (n : Nat) : List Char := natToDigitsCore (n + 1) n []

/-- Apply a placeholder format verb to the counter value. -/
def applyPhFmt : PhFmt → Nat → List Char
  | PhFmt.bare, n => natToDigits n
  | PhFmt.seconds, n => natToDigits n ++ ['s']
  | PhFmt.metricV, n => '_' :: '_' :: 'v' :: (natToDigits n ++ ['_', '_'])

/-- The codec state inside one `replaceGrafanaVariables` call:
`variableToPlaceholder` (memo), `replacements` (inverse table),
`quotedPlaceholders` (quote metadata, LogQL only) and the counter, which
starts at the reserved base 99990000. -/
structure EncState where
  varToPh : List (List Char × List Char)
  replacements : List (List Char × List Char)
  quotedPhs : List (List Char)
  counter : Nat
  deriving DecidableEq, Repr

/-- Fresh codec state: empty tables, counter at the reserved base. -/
def initEncState : EncState := ⟨[], [], [], 99990000⟩

/-- The `getPlaceholder` closure: return the memoized placeholder for this
variable text, or allocate the next counter value under the requested
format, extend both tables and advance the counter. -/
def getPlaceholder (v : List Char) (fm : PhFmt) (s : EncState) : List Char × EncState :=
  match s.varToPh.lookup v with
  | some ph => (ph, s)
  | none =>
    let ph := applyPhFmt fm s.counter
    (ph, ⟨s.varToPh ++ [(v, ph)], s.replacements ++ [(ph, v)], s.quotedPhs, s.counter + 1⟩)

/-- The `getPlaceholderQuoted` closure: as `getPlaceholder`, but a fresh
allocation is also recorded in `quotedPlaceholders`.  (A memoized hit
returns early and does not mark the placeholder quoted, as in the Go
source.) -/
def getPlaceholderQuoted (v : List Char) (fm : PhFmt) (s : EncState) : List Char × EncState :=
  match s.varToPh.lookup v with
  | some ph => (ph, s)
  | none =>
    let ph := applyPhFmt fm s.counter
    (ph, ⟨s.varToPh ++ [(v, ph)], s.replacements ++ [(ph, v)],
      s.quotedPhs ++ [ph], s.counter + 1⟩)

/-! ## LogQL encode passes (logql_transform.go lines 171-218) -/

/-- `replaceLogQLVariablesInDurations`: scan of
`logQLRangeDurationPattern = \[(VAR)\]`, replacing each hit with
`[` + placeholder + `]` under the `%ds` format (the `ReplaceAllStringFunc`
scan resumes after each replaced match and advances one character past a
failed position, exactly as Go's regexp scan does). -/
def replaceLogQLVariablesInDurations : List Char → EncState → List Char × EncState
  | [], s => ([], s)
  | c :: rest, s =>
    if c = '[' then
      match hm : matchVar rest with
      | some (m, r) =>
        match r with
        | ']' :: r2 =>
          let p1 := getPlaceholder m PhFmt.seconds s
          let p2 := replaceLogQLVariablesInDurations r2 p1.2
          ('[' :: (p1.1 ++ ']' :: p2.1), p2.2)
        | _ =>
          let p := replaceLogQLVariablesInDurations rest s
          ('[' :: p.1, p.2)
      | none =>
        let p := replaceLogQLVariablesInDurations rest s
        ('[' :: p.1, p.2)
    else
      let p := replaceLogQLVariablesInDurations rest s
      (c :: p.1, p.2)
termination_by l _ => l.length
decreasing_by
  · have := matchVar_rest_lt hm
    simp only [List.length_cons] at *
    omega
  · simp
  · simp
  · simp

/-- The operator alternatives of `(=~?|!=?~?)` at the head of `l`, listed
with their remainders in the backtracking preference order of a
leftmost-first regexp engine (greedy option-quantifiers first). -/
def opCandidates (l : List Char) : List (List Char × List Char) :=
  if l.head? = some '=' then
    if l.tail.head? = some '~' then [(['=', '~'], l.tail.tail), (['='], l.tail)]
    else [(['='], l.tail)]
  else if l.head? = some '!' then
    if l.tail.head? = some '=' then
      if l.tail.tail.head? = some '~' then
        [(['!', '=', '~'], l.tail.tail.tail), (['!', '='], l.tail.tail), (['!'], l.tail)]
      else [(['!', '='], l.tail.tail), (['!'], l.tail)]
    else if l.tail.head? = some '~' then [(['!', '~'], l.tail.tail), (['!'], l.tail)]
    else [(['!'], l.tail)]
  else []

/-- First successful alternative. -/
def firstSome {α β : Type} (f : α → Option β) : List α → Option β
  | [] => none
  | a :: as =>
    match f a with
    | some b => some b
    | none => firstSome f as

/-- Captured parts of one `logQLLabelValuePattern` match. -/
structure LVParts where
  lvName : List Char
  lvOp : List Char
  lvVar : List Char
  lvQuoted : Bool
  lvSuffix : Option Char
  deriving DecidableEq, Repr

/-- Length bound for `dropWhile`. -/
theorem length_dropWhile_le (p : Char → Bool) (l : List Char) :
    (l.dropWhile p).length ≤ l.length := by
  induction l with
  | nil => simp [List.dropWhile]
  | cons c rest ih =>
    rw [List.dropWhile_cons]
    by_cases h : p c
    · simp only [h, if_true, List.length_cons]
      exact Nat.le_succ_of_le ih
    · simp [h]

/-- Length bound for `tail`. -/
theorem length_tail_le (l : List Char) : l.tail.length ≤ l.length := by
  cases l <;> simp

/-- The quoted alternative `"(VAR)"` of the label-value pattern. -/
def tryQuotedValueVar (av : List Char) : Option (List Char × Bool × Option Char × List Char) :=
  if av.head? = some '"' then
    match matchVar av.tail with
    | some (m, r) => if r.head? = some '"' then some (m, true, none, r.tail) else none
    | none => none
  else none

/-- The bare alternative `(VAR)(?:\s|,|\}|\])` of the label-value pattern:
the variable must be followed by — and the match consumes — a space class
character, comma, closing brace or closing bracket. -/
def tryBareValueVar (av : List Char) : Option (List Char × Bool × Option Char × List Char) :=
  match matchVar av with
  | some (m, r) =>
    match r.head? with
    | some c =>
      if isSpaceChar c || c = ',' || c = '}' || c = ']' then some (m, false, some c, r.tail)
      else none
    | none => none
  | none => none

/-- The value alternation `(?:"(VAR)"|(VAR)(?:\s|,|\}|\]))` of
`logQLLabelValuePattern`, applied after the operator and `\s*`: the quoted
alternative is preferred (leftmost-first alternation). -/
def tryLabelValueVar (av : List Char) : Option (List Char × Bool × Option Char × List Char) :=
  match tryQuotedValueVar av with
  | some q => some q
  | none => tryBareValueVar av

/-- Anchored match of
`logQLLabelValuePattern = (\w+)\s*(=~?|!=?~?)\s*(?:"(VAR)"|(VAR)(?:\s|,|\}|\]))`
at the current position: greedy `\w+` label name, optional spaces, one of
the operator alternatives (tried in preference order), optional spaces,
then the value alternation.  Returns the captured parts and the remainder
after the whole match. -/
def matchLabelValue (l : List Char) : Option (LVParts × List Char) :=
  let pName := spanWord l
  if pName.1.length = 0 then none
  else
    let afterSp1 := pName.2.dropWhile isSpaceChar
    firstSome
      (fun opr =>
        match tryLabelValueVar (opr.2.dropWhile isSpaceChar) with
        | some (m, q, sfx, rest) =>
          some (⟨pName.1, opr.1, m, q, sfx⟩, rest)
        | none => none)
      (opCandidates afterSp1)

/-- Each operator alternative consumes at least one character. -/
theorem opCandidates_rest_lt {l op r : List Char} (h : (op, r) ∈ opCandidates l) :
    r.length < l.length := by
  unfold opCandidates at h
  by_cases h1 : l.head? = some '='
  · rw [if_pos h1] at h
    cases l with
    | nil => simp at h1
    | cons c t =>
      by_cases h2 : t.head? = some '~'
      · rw [if_pos (by simpa using h2)] at h
        cases t with
        | nil => simp at h2
        | cons c2 t2 =>
          simp only [List.tail_cons, List.mem_cons, List.not_mem_nil, or_false, Prod.mk.injEq] at h
          rcases h with ⟨-, h2⟩ | ⟨-, h2⟩ <;> subst h2 <;> simp only [List.length_cons] <;> omega
      · rw [if_neg (by simpa using h2)] at h
        simp only [List.tail_cons, List.mem_cons, List.not_mem_nil, or_false,
          Prod.mk.injEq] at h
        obtain ⟨_, rfl⟩ := h
        simp
  · rw [if_neg h1] at h
    by_cases h2 : l.head? = some '!'
    · rw [if_pos h2] at h
      cases l with
      | nil => simp at h2
      | cons c t =>
        by_cases h3 : t.head? = some '='
        · rw [if_pos (by simpa using h3)] at h
          cases t with
          | nil => simp at h3
          | cons c2 t2 =>
            by_cases h4 : t2.head? = some '~'
            · rw [if_pos (by simpa using h4)] at h
              cases t2 with
              | nil => simp at h4
              | cons c3 t3 =>
                simp only [List.tail_cons, List.mem_cons, List.not_mem_nil, or_false,
                  Prod.mk.injEq] at h
                rcases h with ⟨-, h2⟩ | ⟨-, h2⟩ | ⟨-, h2⟩ <;> subst h2 <;> simp only [List.length_cons] <;> omega
            · rw [if_neg (by simpa using h4)] at h
              simp only [List.tail_cons, List.mem_cons, List.not_mem_nil, or_false,
                Prod.mk.injEq] at h
              rcases h with ⟨-, h2⟩ | ⟨-, h2⟩ <;> subst h2 <;> simp only [List.length_cons] <;> omega
        · rw [if_neg (by simpa using h3)] at h
          by_cases h4 : t.head? = some '~'
          · rw [if_pos (by simpa using h4)] at h
            cases t with
            | nil => simp at h4
            | cons c2 t2 =>
              simp only [List.tail_cons, List.mem_cons, List.not_mem_nil, or_false,
                Prod.mk.injEq] at h
              rcases h with ⟨-, h2⟩ | ⟨-, h2⟩ <;> subst h2 <;> simp only [List.length_cons] <;> omega
          · rw [if_neg (by simpa using h4)] at h
            simp only [List.tail_cons, List.mem_cons, List.not_mem_nil, or_false,
          Prod.mk.injEq] at h
            obtain ⟨_, rfl⟩ := h
            simp
    · rw [if_neg h2] at h
      simp at h

/-- The quoted value alternative consumes at least one character. -/
theorem tryQuotedValueVar_rest_lt {av m : List Char} {q : Bool} {sfx : Option Char}
    {rest : List Char} (h : tryQuotedValueVar av = some (m, q, sfx, rest)) :
    rest.length < av.length := by
  unfold tryQuotedValueVar at h
  by_cases hq : av.head? = some '"'
  · rw [if_pos hq] at h
    match hm : matchVar av.tail with
    | some (m', r') =>
      rw [hm] at h
      dsimp only at h
      have hr' := matchVar_rest_lt hm
      by_cases hr : r'.head? = some '"'
      · rw [if_pos hr] at h
        simp only [Option.some.injEq, Prod.mk.injEq] at h
        obtain ⟨rfl, _, _, rfl⟩ := h
        have h1 : r'.tail.length ≤ r'.length := length_tail_le r'
        have h2 : av.tail.length < av.length := by
          cases av with
          | nil => simp at hq
          | cons a t => simp
        omega
      · rw [if_neg hr] at h
        cases h
    | none => rw [hm] at h; cases h
  · rw [if_neg hq] at h
    cases h

/-- The bare value alternative consumes at least one character. -/
theorem tryBareValueVar_rest_lt {av m : List Char} {q : Bool} {sfx : Option Char}
    {rest : List Char} (h : tryBareValueVar av = some (m, q, sfx, rest)) :
    rest.length < av.length := by
  unfold tryBareValueVar at h
  match hm2 : matchVar av with
  | some (m2, r2) =>
    rw [hm2] at h
    dsimp only at h
    have hr2 := matchVar_rest_lt hm2
    match hh : r2.head? with
    | some c =>
      rw [hh] at h
      dsimp only at h
      split at h
      · simp only [Option.some.injEq, Prod.mk.injEq] at h
        obtain ⟨rfl, _, _, rfl⟩ := h
        have : r2.tail.length ≤ r2.length := length_tail_le r2
        omega
      · cases h
    | none => rw [hh] at h; cases h
  | none => rw [hm2] at h; cases h

/-- The value step consumes at least one character. -/
theorem tryLabelValueVar_rest_lt {av m : List Char} {q : Bool} {sfx : Option Char}
    {rest : List Char} (h : tryLabelValueVar av = some (m, q, sfx, rest)) :
    rest.length < av.length := by
  unfold tryLabelValueVar at h
  match hq : tryQuotedValueVar av with
  | some v =>
    rw [hq] at h
    dsimp only at h
    cases h
    exact tryQuotedValueVar_rest_lt hq
  | none =>
    rw [hq] at h
    dsimp only at h
    exact tryBareValueVar_rest_lt h

/-- Inversion for `firstSome`. -/
theorem firstSome_eq_some {α β : Type} {f : α → Option β} {cands : List α} {b : β}
    (h : firstSome f cands = some b) : ∃ a ∈ cands, f a = some b := by
  induction cands with
  | nil => simp [firstSome] at h
  | cons a as ih =>
    simp only [firstSome] at h
    match hf : f a with
    | some b' =>
      rw [hf] at h
      dsimp only at h
      exact ⟨a, List.mem_cons_self _ _, hf.trans h⟩
    | none =>
      rw [hf] at h
      dsimp only at h
      obtain ⟨a', ha', hfa'⟩ := ih h
      exact ⟨a', List.mem_cons_of_mem _ ha', hfa'⟩

/-- A full label-value match consumes at least one character. -/
theorem matchLabelValue_rest_lt {l : List Char} {parts : LVParts} {rest : List Char}
    (h : matchLabelValue l = some (parts, rest)) : rest.length < l.length := by
  unfold matchLabelValue at h
  by_cases hn : (spanWord l).1.length = 0
  · rw [if_pos hn] at h; cases h
  · rw [if_neg hn] at h
    obtain ⟨heq, _, _⟩ := spanWord_spec l
    have hlen : l.length = (spanWord l).1.length + (spanWord l).2.length := by
      conv_lhs => rw [heq]
      simp [List.length_append]
    obtain ⟨opr, hmem, hf⟩ := firstSome_eq_some h
    have hoprlt : opr.2.length < ((spanWord l).2.dropWhile isSpaceChar).length :=
      opCandidates_rest_lt (show (opr.1, opr.2) ∈ _ from hmem)
    match htv : tryLabelValueVar (opr.2.dropWhile isSpaceChar) with
    | some (m, q, sfx, rest') =>
      rw [htv] at hf
      simp only [Option.some.injEq, Prod.mk.injEq] at hf
      obtain ⟨_, rfl⟩ := hf
      have h1 := tryLabelValueVar_rest_lt htv
      have h2 : (opr.2.dropWhile isSpaceChar).length ≤ opr.2.length :=
        length_dropWhile_le _ _
      have h3 : ((spanWord l).2.dropWhile isSpaceChar).length ≤ (spanWord l).2.length :=
        length_dropWhile_le _ _
      omega
    | none => rw [htv] at hf; cases hf

/-- The suffix kept by the label-value replacement callback: the last
character of the match when it is a space, comma, closing brace or closing
parenthesis (logql_transform.go lines 203-206; note `)` here versus `]` in
the pattern, and bare `\t` etc. are dropped — translated exactly). -/
def lvSuffixChars (sfx : Option Char) : List Char :=
  match sfx with
  | some ch => if ch = ' ' || ch = ',' || ch = '}' || ch = ')' then [ch] else []
  | none => []

/-- `replaceLogQLVariablesInLabelValues`: scan of `logQLLabelValuePattern`,
replacing each match by `label`, `operator`, the quoted placeholder and the
retained suffix; quoted occurrences allocate through `getPlaceholderQuoted`
(logql_transform.go lines 183-210). -/
def replaceLogQLVariablesInLabelValues : List Char → EncState → List Char × EncState
  | [], s => ([], s)
  | c :: rest, s =>
    match hm : matchLabelValue (c :: rest) with
    | some (parts, rest') =>
      let p1 :=
        if parts.lvQuoted then getPlaceholderQuoted parts.lvVar PhFmt.bare s
        else getPlaceholder parts.lvVar PhFmt.bare s
      let p2 := replaceLogQLVariablesInLabelValues rest' p1.2
      (parts.lvName ++ parts.lvOp ++ '"' :: (p1.1 ++ '"' :: (lvSuffixChars parts.lvSuffix ++ p2.1)),
        p2.2)
    | none =>
      let p := replaceLogQLVariablesInLabelValues rest s
      (c :: p.1, p.2)
termination_by l _ => l.length
decreasing_by
  · exact matchLabelValue_rest_lt hm
  · simp

/-- `replaceLogQLVariablesInOtherContexts`: scan of the general pattern
`logQLGeneralVariablePattern = VAR`, replacing each remaining variable by a
bare numeric placeholder (logql_transform.go lines 214-218). -/
def replaceLogQLVariablesInOtherContexts : List Char → EncState → List Char × EncState
  | [], s => ([], s)
  | c :: rest, s =>
    match hm : matchVar (c :: rest) with
    | some (m, r) =>
      let p1 := getPlaceholder m PhFmt.bare s
      let p2 := replaceLogQLVariablesInOtherContexts r p1.2
      (p1.1 ++ p2.1, p2.2)
    | none =>
      let p := replaceLogQLVariablesInOtherContexts rest s
      (c :: p.1, p.2)
termination_by l _ => l.length
decreasing_by
  · exact matchVar_rest_lt hm
  · simp

/-- The `__quoted__` key marker used to carry quote metadata inside the
replacements table. -/
def quotedKeyPrefix : List Char := ['_', '_', 'q', 'u', 'o', 't', 'e', 'd', '_', '_']

/-- `replaceGrafanaVariables` (logql_transform.go lines 114-169): run the
three passes — durations, label values, general — in order on the output
of the previous one, then record quote metadata under `__quoted__` keys in
the returned replacements table. -/
def replaceGrafanaVariables (query : List Char) : List Char × List (List Char × List Char) :=
  let p1 := replaceLogQLVariablesInDurations query initEncState
  let p2 := replaceLogQLVariablesInLabelValues p1.1 p1.2
  let p3 := replaceLogQLVariablesInOtherContexts p2.1 p2.2
  (p3.1, p3.2.replacements ++
    p3.2.quotedPhs.map (fun ph => (quotedKeyPrefix ++ ph, ['t', 'r', 'u', 'e'])))

/-! ## LogQL decode (logql_transform.go lines 222-337) -/

/-- `strings.HasPrefix`. -/
def charsPre : List Char → List Char → Bool
  | [], _ => true
  | _ :: _, [] => false
  | a :: as, b :: bs => a == b && charsPre as bs

/-- `strings.Contains`. -/
def containsSub (pat : List Char) : List Char → Bool
  | [] => charsPre pat []
  | c :: rest => charsPre pat (c :: rest) || containsSub pat rest

/-- `strings.ReplaceAll text pat repl`: leftmost non-overlapping
occurrences of `pat` are replaced by `repl`; the replacement text is not
rescanned.  (Go inserts `repl` between characters when `pat` is empty; the
patterns used here are never empty, and an empty pattern is treated as a
no-op.) -/
def replaceAll (pat repl : List Char) : List Char → List Char
  | [] => []
  | c :: rest =>
    if h : pat ≠ [] ∧ charsPre pat (c :: rest) = true then
      repl ++ replaceAll pat repl ((c :: rest).drop pat.length)
    else
      c :: replaceAll pat repl rest
termination_by l => l.length
decreasing_by
  · have hlen : 0 < pat.length := by
      cases pat with
      | nil => exact absurd rfl h.1
      | cons p ps => simp
    simp only [List.length_drop, List.length_cons]
    omega
  · simp

/-- `fmt.Sscanf(s, "%d", &n)` as used on placeholder digit strings: a
leading run of decimal digits parses to its value, anything else is a scan
error.  (The Go verb also accepts signs and leading white space; the keys
scanned here are digit strings, optionally with prefixes or suffixes that
make the scan fail, so the restriction is faithful on every reachable
input.) -/
def parseDecimal (l : List Char) : Option Nat :=
  let digits := l.takeWhile (fun c => c.isDigit)
  if digits.length = 0 then none
  else some (digits.foldl (fun acc c => acc * 10 + (c.toNat - 48)) 0)

/-- `formatLogQLDuration` (logql_transform.go lines 254-283): decompose a
second count into days, hours, minutes and seconds, keeping only nonzero
parts, with a trailing `0s` when everything is zero. -/
def formatLogQLDuration (totalSeconds : Nat) : List Char :=
  let days := totalSeconds / 86400
  let rem1 := totalSeconds % 86400
  let hours := rem1 / 3600
  let rem2 := rem1 % 3600
  let minutes := rem2 / 60
  let seconds := rem2 % 60
  let p1 := if days > 0 then natToDigits days ++ ['d'] else []
  let p2 := if hours > 0 then natToDigits hours ++ ['h'] else []
  let p3 := if minutes > 0 then natToDigits minutes ++ ['m'] else []
  let base := p1 ++ (p2 ++ p3)
  if seconds > 0 || base.length = 0 then base ++ (natToDigits seconds ++ ['s']) else base

/-- `buildLogQLDurationMap` (logql_transform.go lines 235-251): for every
replacement key ending in `s` whose digit prefix scans as an integer, map
the normalized rendering of that many seconds back to the original
variable.  (Go iterates its map in unspecified order; the association list
is walked in insertion order, which stands in for one such order.) -/
def buildLogQLDurationMap (replacements : List (List Char × List Char)) :
    List (List Char × List Char) :=
  replacements.foldl
    (fun acc pr =>
      if pr.1.getLast? = some 's' then
        match parseDecimal pr.1.dropLast with
        | some secs => acc ++ [(formatLogQLDuration secs, pr.2)]
        | none => acc
      else acc)
    []

/-- Go byte-lexicographic `>` on strings (ASCII code-point order). -/
def lexGT : List Char → List Char → Bool
  | _ :: _, [] => true
  | [], _ => false
  | a :: as, b :: bs => if a = b then lexGT as bs else b < a

/-- The `slices.SortFunc` comparator of `sortLogQLPlaceholdersByLength` as
a before-relation: longer first, then lexicographically descending. -/
def placeholderBefore (a b : List Char) : Bool :=
  if a.length = b.length then lexGT a b else b.length < a.length

/-- `sortLogQLPlaceholdersByLength` (logql_transform.go lines 287-306):
the replacement keys without the `__quoted__` markers, sorted longest
first and then lexicographically descending. -/
def sortLogQLPlaceholdersByLength (replacements : List (List Char × List Char)) :
    List (List Char) :=
  ((replacements.map Prod.fst).filter (fun k => !(charsPre quotedKeyPrefix k))).mergeSort
    placeholderBefore

/-- `restoreLogQLDurationVariables` (logql_transform.go lines 309-315). -/
def restoreLogQLDurationVariables (query : List Char)
    (durationMap : List (List Char × List Char)) : List Char :=
  durationMap.foldl (fun res pr => replaceAll pr.1 pr.2 res) query

/-- `restoreLogQLOtherPlaceholders` (logql_transform.go lines 319-337):
for each placeholder in sorted order, restore the original text; a
placeholder marked `__quoted__` is replaced in its quoted form keeping the
quotes; otherwise the quoted form is preferred when present (dropping the
quotes), else the bare form is replaced. -/
def restoreLogQLOtherPlaceholders (query : List Char) (placeholders : List (List Char))
    (replacements : List (List Char × List Char)) : List Char :=
  placeholders.foldl
    (fun res ph =>
      let original := (replacements.lookup ph).getD []
      let wasQuoted := (replacements.lookup (quotedKeyPrefix ++ ph)).isSome
      if wasQuoted then
        replaceAll ('"' :: (ph ++ ['"'])) ('"' :: (original ++ ['"'])) res
      else
        let quotedPh := '"' :: (ph ++ ['"'])
        if containsSub quotedPh res then replaceAll quotedPh original res
        else replaceAll ph original res)
    query

/-- `restoreGrafanaVariables` (logql_transform.go lines 222-231). -/
def restoreGrafanaVariables (query : List Char)
    (replacements : List (List Char × List Char)) : List Char :=
  let durationMap := buildLogQLDurationMap replacements
  let placeholders := sortLogQLPlaceholdersByLength replacements
  restoreLogQLOtherPlaceholders
    (restoreLogQLDurationVariables query durationMap) placeholders replacements

/-! ## PromQL structural-position check (checkUnsupportedVariables,
promql_transform.go variable-handling revision, lines 146-163, patterns
lines 108-143) -/

/-- Anchored tail of `functionNamePattern` after its `(?:^|[,\(])` anchor:
`\s*` + VAR + `\s*` + `\(`. -/
def varThenParen (l : List Char) : Bool :=
  match matchVar (l.dropWhile isSpaceChar) with
  | some (_, r) => (r.dropWhile isSpaceChar).head? = some '('
  | none => false

/-- `functionNamePattern.MatchString`: a variable in call-target position —
at the start of the text or after `,` or `(` — immediately (modulo spaces)
followed by an opening parenthesis. -/
def hasFunctionNameVar (cs : List Char) : Bool :=
  varThenParen cs || hasFunctionNameVarAux cs
where
  hasFunctionNameVarAux : List Char → Bool
    | [] => false
    | c :: rest => ((c == ',' || c == '(') && varThenParen rest) || hasFunctionNameVarAux rest

/-- The `[^)]*VAR` tail of `groupingLabelPattern`, anchored after the
opening parenthesis: some prefix without `)` followed by a variable. -/
def varAfterNonParens : List Char → Bool
  | [] => false
  | c :: rest => (matchVar (c :: rest)).isSome || (!(c == ')') && varAfterNonParens rest)

/-- Anchored match of `(?:by|without)\s*\([^)]*VAR` (the part of
`groupingLabelPattern` after the word boundary). -/
def groupClauseAt (l : List Char) : Bool :=
  (charsPre ['b', 'y'] l && groupOpenParen (l.drop 2)) ||
  (charsPre ['w', 'i', 't', 'h', 'o', 'u', 't'] l && groupOpenParen (l.drop 7))
where
  groupOpenParen (l2 : List Char) : Bool :=
    match l2.dropWhile isSpaceChar with
    | '(' :: r => varAfterNonParens r
    | _ => false

/-- `groupingLabelPattern.MatchString = \b(?:by|without)\s*\([^)]*VAR`:
a variable inside a `by(...)`/`without(...)` grouping clause.  The word
boundary `\b` holds at the start of the text (the keyword's first letter
is a word character) or after a non-word character. -/
def hasGroupingVar (cs : List Char) : Bool :=
  groupClauseAt cs || hasGroupingVarAux cs
where
  hasGroupingVarAux : List Char → Bool
    | [] => false
    | c :: rest => (!(isWordChar c) && groupClauseAt rest) || hasGroupingVarAux rest

/-- Anchored tail of `metricNameStartPattern` after its anchor:
`\s*` + VAR + `\{`. -/
def varThenBrace (l : List Char) : Bool :=
  match matchVar (l.dropWhile isSpaceChar) with
  | some (_, r) => r.head? = some '{'
  | none => false

/-- `metricNameStartPattern.MatchString = (?:^|[,\(])\s*VAR\{`: a variable
as the entire leading name of a selector. -/
def hasMetricNameStartVar (cs : List Char) : Bool :=
  varThenBrace cs || hasMetricNameStartVarAux cs
where
  hasMetricNameStartVarAux : List Char → Bool
    | [] => false
    | c :: rest => ((c == ',' || c == '(') && varThenBrace rest) || hasMetricNameStartVarAux rest

/-- The three structural-position rejections of `checkUnsupportedVariables`,
one per Go error message. -/
inductive StructuralErr where
  | functionName : StructuralErr
  | grouping : StructuralErr
  | metricNameStart : StructuralErr
  deriving DecidableEq, Repr

/-- The Go error message of each structural rejection. -/
def structuralErrMessage : StructuralErr → String
  | StructuralErr.functionName =>
    "variables in function name positions are not supported: cannot safely validate and restore"
  | StructuralErr.grouping =>
    "variables in grouping (by/without) positions are not supported: cannot safely validate and restore"
  | StructuralErr.metricNameStart =>
    "variables at the start of metric names are not supported: parser requires valid identifier start"

/-- `checkUnsupportedVariables` (promql_transform.go variable revision,
lines 146-163): the three patterns are tried in order and the first hit is
reported. -/
def checkUnsupportedVariables (expr : List Char) : Option StructuralErr :=
  if hasFunctionNameVar expr then some StructuralErr.functionName
  else if hasGroupingVar expr then some StructuralErr.grouping
  else if hasMetricNameStartVar expr then some StructuralErr.metricNameStart
  else none

/-! ## PromQL encode/decode (replaceGrafanaVariablesPromQL /
restoreGrafanaVariablesPromQL, promql_transform.go variable revision,
lines 165-318) -/

/-- Anchored match of `metricNameReplacePattern = (\w+)(VAR)(\w*)\{`:
greedy word prefix, variable, optional word suffix, then the opening brace
of a matcher list.  Returns `(prefix, varText, suffix, rest-after-brace)`. -/
def anchoredMetricName (l : List Char) : Option (List Char × List Char × List Char × List Char) :=
  let p := spanWord l
  if p.1.length = 0 then none
  else
    match matchVar p.2 with
    | some (v, r) =>
      let q := spanWord r
      if q.2.head? = some '{' then some (p.1, v, q.1, q.2.tail) else none
    | none => none

/-- A metric-name match consumes at least one character beyond its rest. -/
theorem anchoredMetricName_rest_lt {l w1 v w2 rest : List Char}
    (h : anchoredMetricName l = some (w1, v, w2, rest)) : rest.length < l.length := by
  unfold anchoredMetricName at h
  by_cases hn : (spanWord l).1.length = 0
  · rw [if_pos hn] at h; cases h
  · rw [if_neg hn] at h
    match hm : matchVar (spanWord l).2 with
    | some (v', r) =>
      rw [hm] at h
      dsimp only at h
      have hr := matchVar_rest_lt hm
      by_cases hb : (spanWord r).2.head? = some '{'
      · rw [if_pos hb] at h
        simp only [Option.some.injEq, Prod.mk.injEq] at h
        obtain ⟨_, _, _, rfl⟩ := h
        obtain ⟨heqr, _, _⟩ := spanWord_spec r
        have h1 : (spanWord r).2.tail.length ≤ (spanWord r).2.length := length_tail_le _
        have h2 : (spanWord r).2.length ≤ r.length := by
          conv_rhs => rw [heqr]
          simp
        obtain ⟨heql, _, _⟩ := spanWord_spec l
        have h3 : (spanWord l).2.length ≤ l.length := by
          conv_rhs => rw [heql]
          simp
        omega
      · rw [if_neg hb] at h; cases h
    | none => rw [hm] at h; cases h

/-- `replaceMetricNameVariables` (promql_transform.go variable revision,
lines 196-225), as a single left-to-right scan.  The Go loop re-runs
`FindStringIndex` on the whole spliced result after each replacement; a
fresh match can never begin at or before the spliced placeholder, because
the splice ends in `{` (not a word character) and removes the only `$` in
the replaced span, so restarting from the beginning and continuing after
the splice visit exactly the same matches in the same order. -/
def replaceMetricNameVariables : List Char → EncState → List Char × EncState
  | [], s => ([], s)
  | c :: rest, s =>
    match hm : anchoredMetricName (c :: rest) with
    | some (w1, v, w2, rest') =>
      let p1 := getPlaceholder v PhFmt.metricV s
      let p2 := replaceMetricNameVariables rest' p1.2
      (w1 ++ (p1.1 ++ (w2 ++ '{' :: p2.1)), p2.2)
    | none =>
      let p := replaceMetricNameVariables rest s
      (c :: p.1, p.2)
termination_by l _ => l.length
decreasing_by
  · exact anchoredMetricName_rest_lt hm
  · simp

/-- `replaceDurationVariables` (promql_transform.go variable revision,
lines 229-235): like the LogQL duration pass, but the placeholder is a
bare integer (`%d`, no `s` suffix). -/
def replaceDurationVariables : List Char → EncState → List Char × EncState
  | [], s => ([], s)
  | c :: rest, s =>
    if c = '[' then
      match hm : matchVar rest with
      | some (m, r) =>
        match r with
        | ']' :: r2 =>
          let p1 := getPlaceholder m PhFmt.bare s
          let p2 := replaceDurationVariables r2 p1.2
          ('[' :: (p1.1 ++ ']' :: p2.1), p2.2)
        | _ =>
          let p := replaceDurationVariables rest s
          ('[' :: p.1, p.2)
      | none =>
        let p := replaceDurationVariables rest s
        ('[' :: p.1, p.2)
    else
      let p := replaceDurationVariables rest s
      (c :: p.1, p.2)
termination_by l _ => l.length
decreasing_by
  · have := matchVar_rest_lt hm
    simp only [List.length_cons] at *
    omega
  · simp
  · simp
  · simp

/-- `replaceValueVariables` (promql_transform.go variable revision, lines
239-243): every remaining variable becomes a bare numeric placeholder. -/
def replaceValueVariables : List Char → EncState → List Char × EncState
  | [], s => ([], s)
  | c :: rest, s =>
    match hm : matchVar (c :: rest) with
    | some (m, r) =>
      let p1 := getPlaceholder m PhFmt.bare s
      let p2 := replaceValueVariables r p1.2
      (p1.1 ++ p2.1, p2.2)
    | none =>
      let p := replaceValueVariables rest s
      (c :: p.1, p.2)
termination_by l _ => l.length
decreasing_by
  · exact matchVar_rest_lt hm
  · simp

/-- `replaceGrafanaVariablesPromQL` (promql_transform.go variable revision,
lines 167-192): metric names, then durations, then everything else. -/
def replaceGrafanaVariablesPromQL (query : List Char) :
    List Char × List (List Char × List Char) :=
  let p1 := replaceMetricNameVariables query initEncState
  let p2 := replaceDurationVariables p1.1 p1.2
  let p3 := replaceValueVariables p2.1 p2.2
  (p3.1, p3.2.replacements)

/-- Modelled from the spec: the grammar-normalized textual form of a
duration (`model.Duration.String` of the external prometheus common
library, used by `buildDurationMap`): greedy decomposition into
years, weeks, days, hours, minutes, seconds and milliseconds, largest
unit first, skipping zero components, with `0s` for zero. -/
def promDurationString (seconds : Nat) : List Char :=
  if seconds = 0 then ['0', 's']
  else
    let ms := seconds * 1000
    let y := ms / 31536000000
    let r1 := ms % 31536000000
    let w := r1 / 604800000
    let r2 := r1 % 604800000
    let d := r2 / 86400000
    let r3 := r2 % 86400000
    let h := r3 / 3600000
    let r4 := r3 % 3600000
    let mi := r4 / 60000
    let r5 := r4 % 60000
    let sec := r5 / 1000
    let msec := r5 % 1000
    (if y > 0 then natToDigits y ++ ['y'] else []) ++
    ((if w > 0 then natToDigits w ++ ['w'] else []) ++
    ((if d > 0 then natToDigits d ++ ['d'] else []) ++
    ((if h > 0 then natToDigits h ++ ['h'] else []) ++
    ((if mi > 0 then natToDigits mi ++ ['m'] else []) ++
    ((if sec > 0 then natToDigits sec ++ ['s'] else []) ++
    (if msec > 0 then natToDigits msec ++ ['m', 's'] else []))))))

/-- `buildDurationMap` (promql_transform.go variable revision, lines
260-275): every replacement key that scans as an integer maps its
normalized duration rendering back to the original variable. -/
def buildDurationMap (replacements : List (List Char × List Char)) :
    List (List Char × List Char) :=
  replacements.foldl
    (fun acc pr =>
      match parseDecimal pr.1 with
      | some counter => acc ++ [(promDurationString counter, pr.2)]
      | none => acc)
    []

/-- `sortPlaceholdersByLength` (promql_transform.go variable revision,
lines 279-297): all replacement keys, longest first, then
lexicographically descending. -/
def sortPlaceholdersByLength (replacements : List (List Char × List Char)) :
    List (List Char) :=
  (replacements.map Prod.fst).mergeSort placeholderBefore

/-- `restoreDurationVariables` (promql_transform.go variable revision,
lines 301-307). -/
def restoreDurationVariables (query : List Char)
    (durationMap : List (List Char × List Char)) : List Char :=
  durationMap.foldl (fun res pr => replaceAll pr.1 pr.2 res) query

/-- `restoreOtherPlaceholders` (promql_transform.go variable revision,
lines 311-318). -/
def restoreOtherPlaceholders (query : List Char) (placeholders : List (List Char))
    (replacements : List (List Char × List Char)) : List Char :=
  placeholders.foldl
    (fun res ph => replaceAll ph ((replacements.lookup ph).getD []) res)
    query

/-- `restoreGrafanaVariablesPromQL` (promql_transform.go variable revision,
lines 247-256). -/
def restoreGrafanaVariablesPromQL (query : List Char)
    (replacements : List (List Char × List Char)) : List Char :=
  restoreOtherPlaceholders
    (restoreDurationVariables query (buildDurationMap replacements))
    (sortPlaceholdersByLength replacements) replacements

/-! ## Transform orchestration (Transform methods of both dialects).
The external grammar is a parameter: `parse` produces an opaque AST value,
and `printInjected` stands for the walk-inject-print step (`expr.Walk` /
`traverseNode` with `injectLabelMatcher`, then `expr.String()`), which
only runs on a successfully parsed AST. -/

/-- Errors surfaced by `Transform`: a structural-position rejection (PromQL
only) or the underlying parser's error. -/
inductive TransformErr where
  | structural : StructuralErr → TransformErr
  | parse : String → TransformErr
  deriving DecidableEq, Repr

namespace PromQL

/-- `PromQL.Transform` of the variable-handling revision (lines 42-71):
structural check first, then encode, then parse — returning the original
argument with the parser's error on failure — then inject-and-print and
restore. -/
def Transform {α : Type} (parse : List Char → Except String α)
    (printInjected : α → List (String × String) → List Char)
    (arg : List Char) (matchers : List (String × String)) : List Char × Option TransformErr :=
  match checkUnsupportedVariables arg with
  | some e => (arg, some (TransformErr.structural e))
  | none =>
    let pr := replaceGrafanaVariablesPromQL arg
    match parse pr.1 with
    | Except.error e => (arg, some (TransformErr.parse e))
    | Except.ok exp => (restoreGrafanaVariablesPromQL (printInjected exp matchers) pr.2, none)

/-- `PromQL.Transform` of promql_transform.go lines 38-54 (the revision
without variable handling): parse the argument directly; on failure return
it with the parser's error; otherwise inject and print. -/
def TransformPlain {α : Type} (parse : List Char → Except String α)
    (printInjected : α → List (String × String) → List Char)
    (arg : List Char) (matchers : List (String × String)) : List Char × Option TransformErr :=
  match parse arg with
  | Except.error e => (arg, some (TransformErr.parse e))
  | Except.ok exp => (printInjected exp matchers, none)

/-- `PromQL.ValidateConfig` (promql_transform.go lines 28-36): delegate to
the external configuration loader and surface its error. -/
def ValidateConfig {ε : Type} (loadFile : List Char → Except ε Unit)
    (filename : List Char) : Except ε Unit :=
  match loadFile filename with
  | Except.error e => Except.error e
  | Except.ok _ => Except.ok ()

end PromQL

namespace LogQL

/-- `LogQL.Transform` (logql_transform.go lines 32-59): encode — with no
structural-position check of any kind — then parse the processed text,
returning the original argument with the parser's error on failure, then
inject along the sorted key list, print, and restore. -/
def Transform {α : Type} (parse : List Char → Except String α)
    (printInjected : α → List String → List (String × String) → List Char)
    (arg : List Char) (matchers : List (String × String)) : List Char × Option TransformErr :=
  let pr := replaceGrafanaVariables arg
  match parse pr.1 with
  | Except.error e => (arg, some (TransformErr.parse e))
  | Except.ok exp =>
    (restoreGrafanaVariables (printInjected exp (sortedMatcherKeys matchers) matchers) pr.2,
      none)

/-- `LogQL.ValidateConfig` (logql_transform.go lines 28-30): always the
same error, no file access. -/
def ValidateConfig (filename : List Char) : Except String Unit :=
  Except.error "Loki not supported for validate-config"

end LogQL

unseal replaceLogQLVariablesInDurations replaceLogQLVariablesInLabelValues
  replaceLogQLVariablesInOtherContexts replaceAll in
/-- Claim C1 counterexample: in the LogQL dialect a variable in
call-target position is not rejected up front — no structural-position
check exists — and the parser is invoked on the substituted text.  At
`$fn(metric[5m])` the text handed to the parser is `99990000(metric[5m])`
(witnessed by an echoing parser), and under a parser that accepts, the
call even succeeds, so Transform does not fail before a parse attempt. -/
theorem logQL_no_structural_check :
    (LogQL.Transform (fun s => Except.error (String.mk s))
        (fun a _ _ => a) "$fn(metric[5m])".data []).2 =
      some (TransformErr.parse "99990000(metric[5m])") ∧
    (LogQL.Transform (fun s => Except.ok s) (fun a _ _ => a)
        "$fn(metric[5m])".data []).2 = none := by
  constructor
  · rfl
  · rfl

/-- Claim C1 (amended): only the PromQL dialect performs the up-front
structural check: whenever `checkUnsupportedVariables` reports a
structurally unsafe variable position, `PromQL.Transform` fails with that
distinct structural error and returns the unmodified input, for every
parser and printer — i.e. before and independent of any parse attempt. -/
theorem promQL_structural_check_first {α : Type} (parse : List Char → Except String α)
    (printInjected : α → List (String × String) → List Char)
    (arg : List Char) (matchers : List (String × String)) (e : StructuralErr)
    (h : checkUnsupportedVariables arg = some e) :
    PromQL.Transform parse printInjected arg matchers =
      (arg, some (TransformErr.structural e)) := by
  unfold PromQL.Transform
  rw [h]

/-- Claim C1 amended-claim witness: `$fn(metric[5m])` is a function-name
position and PromQL.Transform rejects it up front, returning the input
unchanged, under an accept-everything parser. -/
theorem promQL_structural_check_first_witness :
    checkUnsupportedVariables "$fn(metric[5m])".data = some StructuralErr.functionName ∧
    PromQL.Transform (fun s => Except.ok s) (fun a _ => a) "$fn(metric[5m])".data [] =
      ("$fn(metric[5m])".data, some (TransformErr.structural StructuralErr.functionName)) := by
  have h : checkUnsupportedVariables "$fn(metric[5m])".data =
      some StructuralErr.functionName := by rfl
  exact ⟨h, promQL_structural_check_first _ _ _ _ _ h⟩

/-- Claim C7: whenever the processed text fails to parse, Transform
returns the original pre-encode input together with the parser's error —
in the LogQL dialect, in the PromQL dialect with variable handling
(provided the structural check passed, otherwise parsing is never
reached), and in the PromQL dialect without variable handling (where the
processed text is the input itself). -/
theorem parse_failure_returns_original {α : Type} (parse : List Char → Except String α)
    (printVariant : α → List String → List (String × String) → List Char)
    (printInjected : α → List (String × String) → List Char)
    (arg : List Char) (matchers : List (String × String)) (e : String) :
    (parse (replaceGrafanaVariables arg).1 = Except.error e →
      LogQL.Transform parse printVariant arg matchers = (arg, some (TransformErr.parse e))) ∧
    (checkUnsupportedVariables arg = none →
      parse (replaceGrafanaVariablesPromQL arg).1 = Except.error e →
      PromQL.Transform parse printInjected arg matchers = (arg, some (TransformErr.parse e))) ∧
    (parse arg = Except.error e →
      PromQL.TransformPlain parse printInjected arg matchers =
        (arg, some (TransformErr.parse e))) := by
  refine ⟨fun hp => ?_, fun hc hp => ?_, fun hp => ?_⟩
  · simp only [LogQL.Transform, hp]
  · simp only [PromQL.Transform, hc, hp]
  · simp only [PromQL.TransformPlain, hp]

/-- Claim C7 witness: a parser that rejects everything with message
`syntax error` makes all three Transform variants return the untouched
input `up == 0` paired with that error. -/
theorem parse_failure_returns_original_witness :
    LogQL.Transform (α := Unit) (fun _ => Except.error "syntax error")
        (fun _ _ _ => []) "up == 0".data [] =
      ("up == 0".data, some (TransformErr.parse "syntax error")) ∧
    PromQL.Transform (α := Unit) (fun _ => Except.error "syntax error")
        (fun _ _ => []) "up == 0".data [] =
      ("up == 0".data, some (TransformErr.parse "syntax error")) ∧
    PromQL.TransformPlain (α := Unit) (fun _ => Except.error "syntax error")
        (fun _ _ => []) "up == 0".data [] =
      ("up == 0".data, some (TransformErr.parse "syntax error")) := by
  have h := parse_failure_returns_original (α := Unit)
    (fun _ => Except.error "syntax error") (fun _ _ _ => []) (fun _ _ => [])
    "up == 0".data [] "syntax error"
  exact ⟨h.1 rfl, h.2.1 (by rfl) rfl, h.2.2 rfl⟩

/-- Claim C10: the LogQL dialect's ValidateConfig unconditionally returns
the `Loki not supported` error for every filename — it takes no loader and
reads nothing — while the PromQL dialect's ValidateConfig is exactly the
external loader's verdict. -/
theorem logQL_validateConfig_unsupported (filename : List Char) :
    LogQL.ValidateConfig filename = Except.error "Loki not supported for validate-config" ∧
    (∀ {ε : Type} (loadFile : List Char → Except ε Unit),
      PromQL.ValidateConfig loadFile filename =
        match loadFile filename with
        | Except.error e => Except.error e
        | Except.ok _ => Except.ok ()) := by
  exact ⟨rfl, fun loadFile => rfl⟩

/-! ## Rule-group validation (pkg/lokiruler/compat.go) -/

/-- One rule of a rule file (`rulefmt.RuleNode`): record/alert names (the
empty string when unset, Go's zero value), the expression, labels,
annotations, and the `for` duration (0 when absent). -/
structure RuleNode where
  record : String
  alert : String
  expr : String
  labels : List (String × String)
  annotations : List (String × String)
  forDur : Nat
  deriving DecidableEq, Repr

/-- A rule group (`rulefmt.RuleGroup`): a name and its rules. -/
structure RuleGroup where
  name : String
  rules : List RuleNode
  deriving DecidableEq, Repr

/-- The external checks consumed by `validateRuleNode`: the dialect
expression parser (`syntax.ParseExpr`, error side only), the validity
predicates of the prometheus model package, and the template parse test
(`TemplateExpander.ParseTest`, error side only). -/
structure ValidateEnv where
  parseExprErr : String → Option String
  isValidMetricName : String → Bool
  isValidLabelName : String → Bool
  isValidLabelValue : String → Bool
  templateParseErr : String → Option String

/-- Validator errors, one constructor per Go error message, carrying
exactly the data interpolated into that message. -/
inductive RuleErr where
  | bothRecordAndAlert : RuleErr
  | neitherRecordNorAlert : RuleErr
  | missingExpr : RuleErr
  | exprParse : String → String → String → RuleErr
  | annotationsInRecordingRule : RuleErr
  | forInRecordingRule : RuleErr
  | invalidRecordName : String → RuleErr
  | invalidLabelName : String → RuleErr
  | invalidLabelValue : String → RuleErr
  | invalidAnnotationName : String → RuleErr
  | templateLabel : String → String → RuleErr
  | templateAnnotation : String → String → RuleErr
  deriving DecidableEq, Repr

/-- `testTemplateParsing` (compat.go lines 126-170): for alerting rules
only, collect one wrapped error per label value and annotation value that
fails the template parse test. -/
def testTemplateParsing (env : ValidateEnv) (r : RuleNode) : List RuleErr :=
  if r.alert = "" then []
  else
    (r.labels.filterMap
      (fun kv => (env.templateParseErr kv.2).map (RuleErr.templateLabel kv.1))) ++
    (r.annotations.filterMap
      (fun kv => (env.templateParseErr kv.2).map (RuleErr.templateAnnotation kv.1)))

/-- The per-label check body of `validateRuleNode` (compat.go lines
101-109): invalid or reserved (`__name__`) label names, then invalid
label values. -/
def labelCheck (env : ValidateEnv) (kv : String × String) : Option RuleErr :=
  if !(env.isValidLabelName kv.1) || kv.1 == "__name__" then
    some (RuleErr.invalidLabelName kv.1)
  else if !(env.isValidLabelValue kv.2) then some (RuleErr.invalidLabelValue kv.2)
  else none

/-- `validateRuleNode` (compat.go lines 74-122): the checks run in source
order and the first failure is returned — kind conflict, missing or
unparseable `expr`, recording-rule shape and name, label name/value
validity, annotation name validity, and finally the first template
error.  (Go ranges over its label and annotation maps in unspecified
order; the association lists are walked in their own order, standing in
for one such order.) -/
def validateRuleNode (env : ValidateEnv) (r : RuleNode) (groupName : String) :
    Option RuleErr :=
  if r.record ≠ "" ∧ r.alert ≠ "" then some RuleErr.bothRecordAndAlert
  else if r.record = "" ∧ r.alert = "" then some RuleErr.neitherRecordNorAlert
  else if r.expr = "" then some RuleErr.missingExpr
  else
    match env.parseExprErr r.expr with
    | some perr => some (RuleErr.exprParse r.record groupName perr)
    | none =>
      let recordChecks : Option RuleErr :=
        if r.record ≠ "" then
          if r.annotations.length > 0 then some RuleErr.annotationsInRecordingRule
          else if r.forDur ≠ 0 then some RuleErr.forInRecordingRule
          else if !(env.isValidMetricName r.record) then
            some (RuleErr.invalidRecordName r.record)
          else none
        else none
      match recordChecks with
      | some e => some e
      | none =>
        match r.labels.findSome? (labelCheck env) with
        | some e => some e
        | none =>
          match r.annotations.findSome?
              (fun kv =>
                if !(env.isValidLabelName kv.1) then
                  some (RuleErr.invalidAnnotationName kv.1)
                else none) with
          | some e => some e
          | none => (testTemplateParsing env r).head?

/-- File-level validation errors (`ValidateGroups`, compat.go lines
47-72). -/
inductive GroupErr where
  | emptyName : Nat → GroupErr
  | duplicate : String → GroupErr
  | rule : RuleErr → GroupErr
  deriving DecidableEq, Repr

/-- The Go error message of a group-level error; a duplicate carries the
exact group name. -/
def groupErrMessage : GroupErr → String
  | GroupErr.emptyName i => "group " ++ (String.mk (natToDigits i)) ++
      ": Groupname must not be empty"
  | GroupErr.duplicate name => "groupname: \"" ++ name ++ "\" is repeated in the same file"
  | GroupErr.rule _ => "rule error"

/-- The loop body of `ValidateGroups`, carrying the set of names seen so
far and the running index: empty-name error, duplicate-name error, then
one error per invalid rule — all appended, never aborting. -/
def validateGroupsAux (env : ValidateEnv) (seen : List String) (idx : Nat) :
    List RuleGroup → List GroupErr
  | [] => []
  | g :: rest =>
    (if g.name = "" then [GroupErr.emptyName idx] else []) ++
    ((if g.name ∈ seen then [GroupErr.duplicate g.name] else []) ++
      (g.rules.filterMap (fun r => (validateRuleNode env r g.name).map GroupErr.rule) ++
        validateGroupsAux env (seen ++ [g.name]) (idx + 1) rest))

/-- `ValidateGroups` (compat.go lines 47-72). -/
def ValidateGroups (env : ValidateEnv) (grps : List RuleGroup) : List GroupErr :=
  validateGroupsAux env [] 0 grps

/-- Duplicate names are reported from any starting `seen` set: if a later
group's name was already seen — either in `seen` or in an earlier group —
its duplicate error is in the output. -/
theorem validateGroupsAux_duplicate (env : ValidateEnv) :
    ∀ (grps : List RuleGroup) (seen : List String) (idx : Nat) (j : Nat)
      (hj : j < grps.length),
      ((grps.get ⟨j, hj⟩).name ∈ seen ∨
        ∃ i, ∃ hij : i < j, (grps.get ⟨i, Nat.lt_trans hij hj⟩).name = (grps.get ⟨j, hj⟩).name) →
      GroupErr.duplicate (grps.get ⟨j, hj⟩).name ∈ validateGroupsAux env seen idx grps := by
  intro grps
  induction grps with
  | nil => intro seen idx j hj; simp at hj
  | cons g rest ih =>
    intro seen idx j hj hdup
    unfold validateGroupsAux
    match j with
    | 0 =>
      rcases hdup with hseen | ⟨i, hij, _⟩
      · simp only [List.get] at hseen ⊢
        refine List.mem_append_right _ (List.mem_append_left _ ?_)
        rw [if_pos hseen]
        exact List.mem_singleton.mpr rfl
      · omega
    | j' + 1 =>
      have hj' : j' < rest.length := by simpa using hj
      refine List.mem_append_right _ (List.mem_append_right _ (List.mem_append_right _ ?_))
      refine ih (seen ++ [g.name]) (idx + 1) j' hj' ?_
      rcases hdup with hseen | ⟨i, hij, heq⟩
      · exact Or.inl (List.mem_append_left _ hseen)
      · match i with
        | 0 =>
          refine Or.inl (List.mem_append_right _ ?_)
          simp only [List.get] at heq
          rw [← heq]
          exact List.mem_singleton.mpr rfl
        | i' + 1 =>
          refine Or.inr ⟨i', by omega, ?_⟩
          simpa using heq

/-- Every rule violation in every group appears in the output. -/
theorem validateGroupsAux_rule_errors (env : ValidateEnv) :
    ∀ (grps : List RuleGroup) (seen : List String) (idx : Nat) (g : RuleGroup)
      (hg : g ∈ grps) (r : RuleNode) (hr : r ∈ g.rules) (e : RuleErr),
      validateRuleNode env r g.name = some e →
      GroupErr.rule e ∈ validateGroupsAux env seen idx grps := by
  intro grps
  induction grps with
  | nil => intro seen idx g hg; cases hg
  | cons g0 rest ih =>
    intro seen idx g hg r hr e he
    unfold validateGroupsAux
    rcases List.mem_cons.mp hg with rfl | hmem
    · refine List.mem_append_right _ (List.mem_append_right _ (List.mem_append_left _ ?_))
      exact List.mem_filterMap.mpr ⟨r, hr, by rw [he]; rfl⟩
    · exact List.mem_append_right _ (List.mem_append_right _ (List.mem_append_right _
        (ih (seen ++ [g0.name]) (idx + 1) g hmem r hr e he)))

/-- Claim C6: on a successfully decoded file, validation accumulates
every discovered violation across all groups and rules into one list,
never stopping at the first: every duplicated group name is reported with
the exact name without aborting the remaining checks, and every invalid
rule of every group contributes its error to the same aggregate result. -/
theorem validation_accumulates (env : ValidateEnv) (grps : List RuleGroup) :
    (∀ (i j : Nat) (hij : i < j) (hj : j < grps.length),
      (grps.get ⟨i, Nat.lt_trans hij hj⟩).name = (grps.get ⟨j, hj⟩).name →
      GroupErr.duplicate (grps.get ⟨j, hj⟩).name ∈ ValidateGroups env grps) ∧
    (∀ g ∈ grps, ∀ r ∈ g.rules, ∀ e : RuleErr,
      validateRuleNode env r g.name = some e →
      GroupErr.rule e ∈ ValidateGroups env grps) := by
  constructor
  · intro i j hij hj heq
    exact validateGroupsAux_duplicate env grps [] 0 j hj (Or.inr ⟨i, hij, heq⟩)
  · intro g hg r hr e he
    exact validateGroupsAux_rule_errors env grps [] 0 g hg r hr e he

/-- Claim C6 witness: a file with two groups both named `g`, the second
holding a rule with neither `record` nor `alert` set, reports both the
duplicate name and the rule error in one aggregate list. -/
theorem validation_accumulates_witness :
    GroupErr.duplicate "g" ∈
      ValidateGroups ⟨fun _ => none, fun _ => true, fun _ => true, fun _ => true,
          fun _ => none⟩
        [⟨"g", []⟩, ⟨"g", [⟨"", "", "up", [], [], 0⟩]⟩] ∧
    GroupErr.rule RuleErr.neitherRecordNorAlert ∈
      ValidateGroups ⟨fun _ => none, fun _ => true, fun _ => true, fun _ => true,
          fun _ => none⟩
        [⟨"g", []⟩, ⟨"g", [⟨"", "", "up", [], [], 0⟩]⟩] := by
  constructor
  · exact (validation_accumulates _ _).1 0 1 (by omega) (by simp) rfl
  · exact (validation_accumulates _ _).2 ⟨"g", [⟨"", "", "up", [], [], 0⟩]⟩
      (by simp) ⟨"", "", "up", [], [], 0⟩ (by simp) RuleErr.neitherRecordNorAlert rfl

/-! ## Rule-file loading (parseRules, compat.go lines 27-45) -/

/-- A file-level load error: the decoder's error or a validator error. -/
inductive LoadErr where
  | decode : String → LoadErr
  | group : GroupErr → LoadErr
  deriving DecidableEq, Repr

/-- `parseRules` (compat.go lines 27-45): strict decode; a decode failure
is returned alone with no groups; otherwise the decoded groups are
returned together with all validation errors. -/
def parseRules {β : Type} (env : ValidateEnv)
    (decode : β → Except String (List RuleGroup)) (content : β) :
    Option (List RuleGroup) × List LoadErr :=
  match decode content with
  | Except.error e => (none, [LoadErr.decode e])
  | Except.ok groups => (some groups, (ValidateGroups env groups).map LoadErr.group)

/-- Modelled from the spec: the strict structured file decoder (the
external YAML decoder with `KnownFields(true)`, and `rulefmt.Parse` with
`ignoreUnknownFields = false` on the PromQL side) rejects any document
containing a field name it does not know; a document is modelled as its
top-level field names plus the payload it would decode to. -/
structure YamlDoc where
  fields : List String
  payload : List RuleGroup

/-- Modelled from the spec: strict decoding — the first unknown field
aborts with an error naming it, otherwise the payload is returned. -/
def decodeStrict (known : List String) (doc : YamlDoc) :
    Except String (List RuleGroup) :=
  match doc.fields.find? (fun f => !(known.contains f)) with
  | some f => Except.error ("field " ++ f ++ " not found in type rulefmt.RuleGroups")
  | none => Except.ok doc.payload

/-- Claim C9: decoding is strict and a decode failure is fatal for the
whole file: any decode error makes `parseRules` return no rule groups and
exactly that one error — no group or rule check runs;  in particular a
document with an unknown top-level field is rejected this way. -/
theorem decode_failure_fatal {β : Type} (env : ValidateEnv)
    (decode : β → Except String (List RuleGroup)) (content : β) (e : String)
    (known : List String) (doc : YamlDoc) :
    (decode content = Except.error e →
      parseRules env decode content = (none, [LoadErr.decode e])) ∧
    ((∃ f ∈ doc.fields, !(known.contains f)) →
      ∃ e', decodeStrict known doc = Except.error e' ∧
        parseRules env (decodeStrict known) doc = (none, [LoadErr.decode e'])) := by
  constructor
  · intro h
    unfold parseRules
    rw [h]
  · intro hex
    have hsome : (doc.fields.find? (fun f => !(known.contains f))).isSome := by
      rw [List.find?_isSome]
      obtain ⟨f, hf, hnk⟩ := hex
      exact ⟨f, hf, hnk⟩
    obtain ⟨f', hf'⟩ := Option.isSome_iff_exists.mp hsome
    refine ⟨"field " ++ f' ++ " not found in type rulefmt.RuleGroups", ?_, ?_⟩
    · unfold decodeStrict
      rw [hf']
    · unfold parseRules decodeStrict
      rw [hf']

/-- Claim C9 witness: a document with the unknown top-level field
`grups` decodes to an error and yields no partial rule groups. -/
theorem decode_failure_fatal_witness :
    ∃ e', parseRules
        ⟨fun _ => none, fun _ => true, fun _ => true, fun _ => true, fun _ => none⟩
        (decodeStrict ["groups"]) ⟨["grups"], [⟨"g", []⟩]⟩ =
      (none, [LoadErr.decode e']) := by
  obtain ⟨e', _, hpr⟩ := (decode_failure_fatal
    ⟨fun _ => none, fun _ => true, fun _ => true, fun _ => true, fun _ => none⟩
    (decodeStrict ["groups"]) ⟨["grups"], [⟨"g", []⟩]⟩
    "" ["groups"] ⟨["grups"], [⟨"g", []⟩]⟩).2 ⟨"grups", by simp, by decide⟩
  exact ⟨e', hpr⟩

/-! ## Placeholder memoization and counter allocation (claim C8) -/

/-- Generic association-list lookup over an append. -/
theorem lookup_append {α β : Type} [BEq α] (l1 l2 : List (α × β)) (k : α) :
    (l1 ++ l2).lookup k =
      match l1.lookup k with
      | some v => some v
      | none => l2.lookup k := by
  induction l1 with
  | nil => simp [List.lookup]
  | cons p rest ih =>
    cases p with
    | mk a b =>
      by_cases h : (k == a) = true
      · simp [List.lookup, h]
      · simp only [List.cons_append, List.lookup, h]
        exact ih

/-- Lookup misses exactly the absent keys (with a lawful `BEq`). -/
theorem lookup_eq_none_iff {α β : Type} [BEq α] [LawfulBEq α] (l : List (α × β)) (k : α) :
    l.lookup k = none ↔ k ∉ l.map Prod.fst := by
  induction l with
  | nil => simp [List.lookup]
  | cons p rest ih =>
    cases p with
    | mk a b =>
      by_cases h : (k == a) = true
      · have : k = a := eq_of_beq h
        simp [List.lookup, h, this]
      · have hne : k ≠ a := fun hEq => h (beq_iff_eq .. |>.mpr hEq)
        simp [List.lookup, h, hne, ih]

/-- One placeholder request: dispatch to `getPlaceholderQuoted` or
`getPlaceholder` according to the request's quoted flag. -/
def allocStep (r : List Char × PhFmt × Bool) (s : EncState) : List Char × EncState :=
  if r.2.2 then getPlaceholderQuoted r.1 r.2.1 s else getPlaceholder r.1 r.2.1 s

/-- A run of placeholder requests, as issued by the encode passes: each
request carries the variable text, the format of this occurrence, and
whether it goes through `getPlaceholderQuoted`; the outputs are the
returned placeholders. -/
def runAllocs : List (List Char × PhFmt × Bool) → EncState → List (List Char) × EncState
  | [], s => ([], s)
  | r :: rest, s =>
    ((allocStep r s).1 :: (runAllocs rest (allocStep r s).2).1,
      (runAllocs rest (allocStep r s).2).2)

/-- The allocating requests: the first occurrence of each variable text,
with the format of that first occurrence. -/
def firstReqs (seen : List (List Char)) :
    List (List Char × PhFmt × Bool) → List (List Char × PhFmt)
  | [] => []
  | r :: rest =>
    if r.1 ∈ seen then firstReqs seen rest
    else (r.1, r.2.1) :: firstReqs (seen ++ [r.1]) rest

/-- The memo table induced by a first-occurrence list from a counter
base: the j-th distinct text is bound to the placeholder formatted from
`base + j`. -/
def assignTable (base : Nat) : List (List Char × PhFmt) → List (List Char × List Char)
  | [] => []
  | p :: rest => (p.1, applyPhFmt p.2 base) :: assignTable (base + 1) rest

theorem assignTable_append (b : Nat) (l1 l2 : List (List Char × PhFmt)) :
    assignTable b (l1 ++ l2) = assignTable b l1 ++ assignTable (b + l1.length) l2 := by
  induction l1 generalizing b with
  | nil => simp [assignTable]
  | cons p rest ih =>
    show (p.1, applyPhFmt p.2 b) :: assignTable (b + 1) (rest ++ l2) =
      ((p.1, applyPhFmt p.2 b) :: assignTable (b + 1) rest) ++
        assignTable (b + (rest.length + 1)) l2
    rw [ih (b + 1)]
    have h2 : b + 1 + rest.length = b + (rest.length + 1) := by omega
    rw [h2]
    simp

theorem assignTable_keys (b : Nat) (l : List (List Char × PhFmt)) :
    (assignTable b l).map Prod.fst = l.map Prod.fst := by
  induction l generalizing b with
  | nil => rfl
  | cons p rest ih => simp [assignTable, ih]

/-- Core invariant of the memoized allocator: started from a state whose
memo table realizes the assignment of a duplicate-free prefix `pre` and
whose counter sits just past it, a request run returns, for every
request, the final table's entry for its text; the counter advances by
exactly the number of new distinct texts. -/
theorem runAllocs_spec (b : Nat) (rs : List (List Char × PhFmt × Bool)) :
    ∀ (pre : List (List Char × PhFmt)) (s : EncState)
      (hv : s.varToPh = assignTable b pre) (hc : s.counter = b + pre.length)
      (hnd : (pre.map Prod.fst).Nodup),
      (runAllocs rs s).1 =
        rs.map (fun r =>
          (((assignTable b (pre ++ firstReqs (pre.map Prod.fst) rs)).lookup r.1).getD [])) ∧
      (runAllocs rs s).2.counter = b + (pre ++ firstReqs (pre.map Prod.fst) rs).length := by
  induction rs with
  | nil =>
    intro pre s hv hc hnd
    simp [runAllocs, firstReqs, hc]
  | cons r rest ih =>
    intro pre s hv hc hnd
    by_cases hseen : r.1 ∈ pre.map Prod.fst
    · have hsome : ∃ ph, s.varToPh.lookup r.1 = some ph := by
        rcases hx : s.varToPh.lookup r.1 with _ | ph
        · rw [hv, lookup_eq_none_iff, assignTable_keys] at hx
          exact absurd hseen hx
        · exact ⟨ph, rfl⟩
      obtain ⟨ph, hph⟩ := hsome
      have hstep : allocStep r s = (ph, s) := by
        cases hb : r.2.2 <;> simp [allocStep, hb, getPlaceholder, getPlaceholderQuoted, hph]
      have hfr : firstReqs (pre.map Prod.fst) (r :: rest) =
          firstReqs (pre.map Prod.fst) rest := by
        simp [firstReqs, hseen]
      obtain ⟨ho, hcnt⟩ := ih pre s hv hc hnd
      have hrun : runAllocs (r :: rest) s =
          (ph :: (runAllocs rest s).1, (runAllocs rest s).2) := by
        simp only [runAllocs, hstep]
      rw [hrun, hfr]
      refine ⟨?_, hcnt⟩
      simp only [List.map_cons]
      rw [ho]
      congr 1
      rw [assignTable_append, lookup_append]
      have hpre : (assignTable b pre).lookup r.1 = some ph := hv ▸ hph
      rw [hpre]
      rfl
    · have hnone : s.varToPh.lookup r.1 = none := by
        rw [hv, lookup_eq_none_iff, assignTable_keys]
        exact hseen
      have hstep : allocStep r s =
          (applyPhFmt r.2.1 s.counter,
            ⟨s.varToPh ++ [(r.1, applyPhFmt r.2.1 s.counter)],
              s.replacements ++ [(applyPhFmt r.2.1 s.counter, r.1)],
              if r.2.2 then s.quotedPhs ++ [applyPhFmt r.2.1 s.counter] else s.quotedPhs,
              s.counter + 1⟩) := by
        cases hb : r.2.2 <;>
          simp [allocStep, hb, getPlaceholder, getPlaceholderQuoted, hnone]
      have hv' : (allocStep r s).2.varToPh = assignTable b (pre ++ [(r.1, r.2.1)]) := by
        rw [hstep, hv, assignTable_append, hc]
        rfl
      have hc' : (allocStep r s).2.counter = b + (pre ++ [(r.1, r.2.1)]).length := by
        rw [hstep]
        show s.counter + 1 = _
        rw [hc]
        simp only [List.length_append, List.length_cons, List.length_nil]
        omega
      have hnd' : ((pre ++ [(r.1, r.2.1)]).map Prod.fst).Nodup := by
        simp only [List.map_append, List.map_cons, List.map_nil]
        exact List.Nodup.append hnd (by simp) (by
          intro a ha hb
          simp only [List.mem_singleton] at hb
          subst hb
          exact hseen ha)
      have hfr : firstReqs (pre.map Prod.fst) (r :: rest) =
          (r.1, r.2.1) :: firstReqs (pre.map Prod.fst ++ [r.1]) rest := by
        simp [firstReqs, hseen]
      have hkeys : (pre ++ [(r.1, r.2.1)]).map Prod.fst = pre.map Prod.fst ++ [r.1] := by
        simp
      obtain ⟨ho, hcnt⟩ := ih (pre ++ [(r.1, r.2.1)]) (allocStep r s).2 hv' hc' hnd'
      rw [hkeys] at ho hcnt
      have hassoc : pre ++ (r.1, r.2.1) :: firstReqs (pre.map Prod.fst ++ [r.1]) rest =
          (pre ++ [(r.1, r.2.1)]) ++ firstReqs (pre.map Prod.fst ++ [r.1]) rest := by
        simp
      have hrun : runAllocs (r :: rest) s =
          ((allocStep r s).1 :: (runAllocs rest (allocStep r s).2).1,
            (runAllocs rest (allocStep r s).2).2) := by
        simp only [runAllocs]
      rw [hrun, hfr, hassoc]
      constructor
      · simp only [List.map_cons]
        rw [ho]
        congr 1
        rw [hstep]
        show applyPhFmt r.2.1 s.counter =
          ((assignTable b ((pre ++ [(r.1, r.2.1)]) ++
            firstReqs (pre.map Prod.fst ++ [r.1]) rest)).lookup r.1).getD []
        rw [assignTable_append b (pre ++ [(r.1, r.2.1)])
            (firstReqs (pre.map Prod.fst ++ [r.1]) rest),
          lookup_append, assignTable_append b pre [(r.1, r.2.1)], lookup_append]
        have hmiss : (assignTable b pre).lookup r.1 = none := by
          rw [lookup_eq_none_iff, assignTable_keys]
          exact hseen
        rw [hmiss, hc]
        simp [assignTable, List.lookup]
      · exact hcnt

/-- Claim C8: within one Encode call, placeholder assignment is memoized
per distinct original variable text — each request's placeholder is the
table entry of its text, where the j-th distinct text (in order of first
encounter, deciding also the format) is bound to the counter value
`99990000 + j`: the same text always reuses its placeholder regardless of
context, and counter-derived placeholders are consecutive increasing
integers starting at the reserved base 99990000 (an order-10^8 value). -/
theorem placeholder_memoized_monotone (rs : List (List Char × PhFmt × Bool)) :
    (runAllocs rs initEncState).1 =
      rs.map (fun r =>
        (((assignTable 99990000 (firstReqs [] rs)).lookup r.1).getD [])) ∧
    (runAllocs rs initEncState).2.counter = 99990000 + (firstReqs [] rs).length ∧
    (∀ (i j : Nat) (hi : i < rs.length) (hj : j < rs.length),
      (rs.get ⟨i, hi⟩).1 = (rs.get ⟨j, hj⟩).1 →
      (runAllocs rs initEncState).1.get
          ⟨i, by rw [(runAllocs_spec 99990000 rs [] initEncState rfl rfl (by simp)).1]; simpa⟩ =
        (runAllocs rs initEncState).1.get
          ⟨j, by rw [(runAllocs_spec 99990000 rs [] initEncState rfl rfl (by simp)).1]; simpa⟩) := by
  obtain ⟨ho, hc⟩ := runAllocs_spec 99990000 rs [] initEncState rfl rfl (by simp)
  simp only [List.nil_append, List.map_nil] at ho hc
  refine ⟨ho, by simpa using hc, ?_⟩
  intro i j hi hj heq
  have hgi := List.get_of_eq ho ⟨i, by rw [ho]; simpa⟩
  have hgj := List.get_of_eq ho ⟨j, by rw [ho]; simpa⟩
  rw [hgi, hgj, List.get_map, List.get_map]
  simp only [heq]

/-! ## Decimal digit strings: facts about `natToDigits` used by the
round-trip analysis of the placeholder codec. -/

theorem digitChar_toNat {n : Nat} (h : n < 10) : (digitChar n).toNat = 48 + n := by
  interval_cases n <;> decide

theorem digitChar_isDigit {n : Nat} (h : n < 10) : (digitChar n).isDigit = true := by
  interval_cases n <;> decide

theorem natToDigitsCore_acc (fuel : Nat) :
    ∀ (n : Nat) (acc : List Char),
      natToDigitsCore fuel n acc = natToDigitsCore fuel n [] ++ acc := by
  induction fuel with
  | zero => intro n acc; simp [natToDigitsCore]
  | succ fuel ih =>
    intro n acc
    by_cases h : n < 10
    · simp [natToDigitsCore, h]
    · simp only [natToDigitsCore, h, if_false]
      rw [ih (n / 10) (digitChar (n % 10) :: acc), ih (n / 10) [digitChar (n % 10)]]
      simp

theorem natToDigitsCore_isDigit (fuel : Nat) :
    ∀ (n : Nat) (acc : List Char), (∀ c ∈ acc, c.isDigit) →
      ∀ c ∈ natToDigitsCore fuel n acc, c.isDigit := by
  induction fuel with
  | zero => intro n acc hacc; simpa [natToDigitsCore] using hacc
  | succ fuel ih =>
    intro n acc hacc c hc
    by_cases h : n < 10
    · simp only [natToDigitsCore, h, if_true] at hc
      rcases List.mem_cons.mp hc with rfl | hmem
      · exact digitChar_isDigit h
      · exact hacc c hmem
    · simp only [natToDigitsCore, h, if_false] at hc
      refine ih (n / 10) (digitChar (n % 10) :: acc) ?_ c hc
      intro c' hc'
      rcases List.mem_cons.mp hc' with rfl | hmem
      · exact digitChar_isDigit (Nat.mod_lt _ (by omega))
      · exact hacc c' hmem

/-- Every character of a rendered decimal number is a digit. -/
theorem natToDigits_isDigit (n : Nat) : ∀ c ∈ natToDigits n, c.isDigit :=
  natToDigitsCore_isDigit (n + 1) n [] (by simp)

/-- The little accumulator value read back from a digit list. -/
def digitsVal (l : List Char) : Nat :=
  l.foldl (fun a c => a * 10 + (c.toNat - 48)) 0

theorem digitsVal_append_singleton (l : List Char) (c : Char) :
    digitsVal (l ++ [c]) = digitsVal l * 10 + (c.toNat - 48) := by
  simp [digitsVal, List.foldl_append]

theorem natToDigitsCore_val (fuel : Nat) :
    ∀ n : Nat, n < 10 ^ fuel → digitsVal (natToDigitsCore fuel n []) = n := by
  induction fuel with
  | zero => intro n h; interval_cases n; simp [natToDigitsCore, digitsVal]
  | succ fuel ih =>
    intro n h
    by_cases h10 : n < 10
    · simp only [natToDigitsCore, h10, if_true]
      simp [digitsVal, digitChar_toNat h10]
    · simp only [natToDigitsCore, h10, if_false]
      rw [natToDigitsCore_acc]
      rw [digitsVal_append_singleton]
      rw [ih (n / 10) (by
        rw [Nat.div_lt_iff_lt_mul (by omega)]
        calc n < 10 ^ (fuel + 1) := h
        _ = 10 ^ fuel * 10 := by ring)]
      rw [digitChar_toNat (Nat.mod_lt _ (by omega))]
      omega

theorem natToDigits_val (n : Nat) : digitsVal (natToDigits n) = n := by
  have h : n < 10 ^ (n + 1) := by
    calc n < n + 1 := Nat.lt_succ_self n
    _ ≤ 10 ^ (n + 1) := Nat.le_of_lt (Nat.lt_pow_self (by omega) _)
  exact natToDigitsCore_val (n + 1) n h

/-- Decimal rendering is injective. -/
theorem natToDigits_injective {n m : Nat} (h : natToDigits n = natToDigits m) : n = m := by
  have := natToDigits_val n
  rw [h, natToDigits_val] at this
  omega

/-- A rendered decimal number is nonempty and starts with a digit. -/
theorem natToDigits_nonempty (n : Nat) : natToDigits n ≠ [] := by
  intro h
  have := congrArg List.length h
  by_cases h10 : n < 10
  · simp [natToDigits, natToDigitsCore, h10] at this
  · simp only [natToDigits, natToDigitsCore, h10, if_false] at this
    rw [natToDigitsCore_acc, List.length_append] at this
    simp at this

theorem natToDigits_head_isDigit (n : Nat) :
    ∀ c ∈ (natToDigits n).head?, c.isDigit := by
  intro c hc
  cases hnd : natToDigits n with
  | nil => exact absurd hnd (natToDigits_nonempty n)
  | cons c0 rest =>
    rw [hnd] at hc
    simp only [List.head?_cons, Option.mem_def, Option.some.injEq] at hc
    subst hc
    exact natToDigits_isDigit n c0 (by rw [hnd]; exact List.mem_cons_self _ _)

/-! ## Replacement lemmas: how `replaceAll` acts on texts whose digit
runs are isolated placeholders. -/

theorem charsPre_eq_true_iff (p : List Char) :
    ∀ l : List Char, charsPre p l = true ↔ ∃ t, l = p ++ t := by
  induction p with
  | nil => intro l; simp [charsPre]
  | cons a as ih =>
    intro l
    cases l with
    | nil => simp [charsPre]
    | cons b bs =>
      simp only [charsPre, Bool.and_eq_true, beq_iff_eq, ih bs]
      constructor
      · rintro ⟨rfl, t, rfl⟩
        exact ⟨t, rfl⟩
      · rintro ⟨t, ht⟩
        simp only [List.cons_append, List.cons.injEq] at ht
        exact ⟨ht.1.symm, t, ht.2⟩

theorem charsPre_self_append (p t : List Char) : charsPre p (p ++ t) = true :=
  (charsPre_eq_true_iff p (p ++ t)).mpr ⟨t, rfl⟩

/-- Digit-headed keys never carry the `__quoted__` marker. -/
theorem charsPre_quotedKeyPrefix_false (k : List Char)
    (h : ∀ c ∈ k.head?, c.isDigit) : charsPre quotedKeyPrefix k = false := by
  cases k with
  | nil => rfl
  | cons c rest =>
    show (('_' : Char) == c && charsPre _ rest) = false
    have hc : c.isDigit := h c rfl
    have : (('_' : Char) == c) = false := by
      simp only [beq_eq_false_iff_ne, ne_eq]
      intro hEq
      rw [← hEq] at hc
      exact absurd hc (by decide)
    rw [this]
    rfl

/-! ## Tracking the inverse table built by the allocator. -/

/-- The inverse (`replacements`) table induced by a first-occurrence list:
placeholder back to original text. -/
def invTable (base : Nat) : List (List Char × PhFmt) → List (List Char × List Char)
  | [] => []
  | p :: rest => (applyPhFmt p.2 base, p.1) :: invTable (base + 1) rest

/-- One Grafana variable occurrence as written in the query text: the word
form `$name` or the braced form `${name}`. -/
inductive VarTok where
  | word : List Char → VarTok
  | braced : List Char → VarTok
  deriving DecidableEq, Repr

/-- The text of a variable occurrence. -/
def varText : VarTok → List Char
  | VarTok.word n => '$' :: n
  | VarTok.braced i => '$' :: '{' :: (i ++ ['}'])

unseal replaceLogQLVariablesInDurations replaceLogQLVariablesInLabelValues
  replaceLogQLVariablesInOtherContexts replaceAll List.mergeSort List.merge in
/-- No suffix that starts inside `x` (continuing into `t`) begins an
occurrence of `p`. -/
def WindowsFail (p x t : List Char) : Prop :=
  ∀ u v, x = u ++ v → v ≠ [] → charsPre p (v ++ t) = false

/-- `p` occurs nowhere in `t`. -/
def NoOccur (p t : List Char) : Prop :=
  ∀ u v, t = u ++ v → charsPre p v = false

theorem windowsFail_nil (p t : List Char) : WindowsFail p [] t := by
  intro u v h hv
  rcases List.append_eq_nil.mp h.symm with ⟨-, rfl⟩
  exact absurd rfl hv

theorem windowsFail_shift {p x t : List Char} {c : Char}
    (h : WindowsFail p (c :: x) t) : WindowsFail p x t := by
  intro u v hx hv
  exact h (c :: u) v (by rw [hx]; rfl) hv

theorem windowsFail_head {p x t : List Char} {c : Char}
    (h : WindowsFail p (c :: x) t) : charsPre p ((c :: x) ++ t) = false :=
  h [] (c :: x) rfl (by simp)

/-- Chaining windows across an append. -/
theorem windowsFail_append {p x y t : List Char}
    (hx : WindowsFail p x (y ++ t)) (hy : WindowsFail p y t) :
    WindowsFail p (x ++ y) t := by
  induction x with
  | nil => simpa using hy
  | cons c x2 ih =>
    intro u v hx2 hv
    cases u with
    | nil =>
      simp only [List.nil_append] at hx2
      subst hx2
      have := windowsFail_head hx
      simpa using this
    | cons u0 u2 =>
      simp only [List.cons_append, List.cons.injEq] at hx2
      exact ih (windowsFail_shift hx) u2 v hx2.2 hv

/-- Windows failing everywhere in `x` and nothing occurring in `y` means
nothing occurs in `x ++ y`. -/
theorem noOccur_append {p x y : List Char}
    (hx : WindowsFail p x y) (hy : NoOccur p y) : NoOccur p (x ++ y) := by
  induction x with
  | nil => simpa using hy
  | cons c x2 ih =>
    intro u v huv
    cases u with
    | nil =>
      simp only [List.nil_append] at huv
      subst huv
      have := windowsFail_head hx
      simpa using this
    | cons u0 u2 =>
      simp only [List.cons_append, List.cons.injEq] at huv
      exact ih (windowsFail_shift hx) u2 v huv.2

theorem noOccur_nil {p : List Char} (hp : p ≠ []) : NoOccur p [] := by
  intro u v huv
  rcases List.append_eq_nil.mp huv.symm with ⟨-, rfl⟩
  cases p with
  | nil => exact absurd rfl hp
  | cons c ps => rfl

/-- A text in which `p` does not occur contains no `p`-substring. -/
theorem containsSub_eq_false_of_noOccur {p t : List Char}
    (h : NoOccur p t) : containsSub p t = false := by
  induction t with
  | nil =>
    show charsPre p [] = false
    exact h [] [] rfl
  | cons c rest ih =>
    show (charsPre p (c :: rest) || containsSub p rest) = false
    rw [h [] (c :: rest) rfl, ih (fun u v huv => h (c :: u) v (by rw [huv]; rfl))]
    rfl

/-- `replaceAll` is the identity on a text in which the pattern does not
occur. -/
theorem replaceAll_id_of_noOccur (p o : List Char) :
    ∀ t, NoOccur p t → replaceAll p o t = t := by
  intro t
  induction t with
  | nil => intro _; rw [replaceAll]
  | cons c rest ih =>
    intro h
    rw [replaceAll, dif_neg ?hneg]
    case hneg =>
      rintro ⟨-, hpre⟩
      rw [h [] (c :: rest) rfl] at hpre
      cases hpre
    rw [ih (fun u v huv => h (c :: u) v (by rw [huv]; rfl))]

/-- Skipping a windows-failing block under `replaceAll`. -/
theorem replaceAll_skip_of_windowsFail (p o : List Char) :
    ∀ (x t : List Char), WindowsFail p x t →
      replaceAll p o (x ++ t) = x ++ replaceAll p o t := by
  intro x
  induction x with
  | nil => intro t _; simp
  | cons c x2 ih =>
    intro t h
    show replaceAll p o (c :: (x2 ++ t)) = _
    rw [replaceAll, dif_neg ?hneg]
    case hneg =>
      rintro ⟨-, hpre⟩
      have := windowsFail_head h
      rw [show (c :: x2) ++ t = c :: (x2 ++ t) from rfl] at this
      rw [this] at hpre
      cases hpre
    rw [ih t (windowsFail_shift h)]
    rfl

/-- Splitting an append equality at the shorter left part. -/
theorem append_eq_append_of_le {α : Type} {a b c d : List α}
    (h : a ++ b = c ++ d) (hl : a.length ≤ c.length) :
    ∃ m, c = a ++ m ∧ b = m ++ d := by
  induction a generalizing c with
  | nil => exact ⟨c, rfl, by simpa using h⟩
  | cons x a2 ih =>
    cases c with
    | nil => simp at hl
    | cons y c2 =>
      simp only [List.cons_append, List.cons.injEq] at h
      obtain ⟨rfl, h2⟩ := h
      obtain ⟨m, hm1, hm2⟩ := ih h2 (by simpa using hl)
      exact ⟨m, by rw [hm1]; rfl, hm2⟩

/-- A prefix match forces at least the pattern's length. -/
theorem charsPre_false_of_short {p v : List Char} (h : v.length < p.length) :
    charsPre p v = false := by
  cases hc : charsPre p v with
  | false => rfl
  | true =>
    obtain ⟨t, rfl⟩ := (charsPre_eq_true_iff p v).mp hc
    simp at h

/-- A prefix match of a longer pattern yields one of its prefix. -/
theorem charsPre_of_charsPre_append {p q v : List Char}
    (h : charsPre (p ++ q) v = true) : charsPre p v = true := by
  obtain ⟨t, rfl⟩ := (charsPre_eq_true_iff _ v).mp h
  rw [List.append_assoc]
  exact charsPre_self_append p _

/-- Equal-length prefixes of equal appends agree. -/
theorem eq_of_append_eq_append {α : Type} {a b c d : List α}
    (h : a ++ b = c ++ d) (hl : a.length = c.length) : a = c ∧ b = d := by
  obtain ⟨m, hm1, hm2⟩ := append_eq_append_of_le h (Nat.le_of_eq hl)
  have : m = [] := by
    have := congrArg List.length hm1
    simp only [List.length_append] at this
    rw [hl] at this
    have hm0 : m.length = 0 := by omega
    exact List.eq_nil_of_length_eq_zero hm0
  subst this
  simp only [List.append_nil] at hm1
  constructor
  · exact hm1.symm
  · simpa using hm2

/-! ## Digit-run bounds and per-block window-failure lemmas. -/

/-- Auxiliary digit-run counter: `cnt` digits are already pending. -/
def digitRunsAux (k cnt : Nat) : List Char → Bool
  | [] => true
  | c :: rest =>
    if c.isDigit then decide (cnt + 1 ≤ k) && digitRunsAux k (cnt + 1) rest
    else digitRunsAux k 0 rest

/-- Every maximal run of consecutive digits has length at most `k`. -/
def digitRunsLe (k : Nat) (l : List Char) : Bool := digitRunsAux k 0 l

theorem digitRunsAux_mono (k : Nat) :
    ∀ (l : List Char) (cnt cnt' : Nat), cnt' ≤ cnt →
      digitRunsAux k cnt l = true → digitRunsAux k cnt' l = true := by
  intro l
  induction l with
  | nil => intro cnt cnt' _ _; rfl
  | cons c rest ih =>
    intro cnt cnt' hle h
    rw [digitRunsAux] at h ⊢
    by_cases hc : c.isDigit
    · rw [if_pos hc] at h ⊢
      rw [Bool.and_eq_true, decide_eq_true_eq] at h
      rw [Bool.and_eq_true, decide_eq_true_eq]
      exact ⟨by omega, ih (cnt + 1) (cnt' + 1) (by omega) h.2⟩
    · rw [if_neg hc] at h ⊢
      exact h

theorem digitRunsAux_suffix (k : Nat) :
    ∀ (u v : List Char) (cnt : Nat), digitRunsAux k cnt (u ++ v) = true →
      digitRunsLe k v = true := by
  intro u
  induction u with
  | nil =>
    intro v cnt h
    exact digitRunsAux_mono k v cnt 0 (Nat.zero_le _) h
  | cons c u2 ih =>
    intro v cnt h
    rw [List.cons_append, digitRunsAux] at h
    by_cases hc : c.isDigit
    · rw [if_pos hc, Bool.and_eq_true] at h
      exact ih v (cnt + 1) h.2
    · rw [if_neg hc] at h
      exact ih v 0 h

theorem takeWhile_digit_le_of_aux (k : Nat) :
    ∀ (l : List Char) (cnt : Nat), digitRunsAux k cnt l = true →
      (l.takeWhile (fun c => c.isDigit)).length + cnt ≤ k ∨
        (l.takeWhile (fun c => c.isDigit)).length = 0 := by
  intro l
  induction l with
  | nil => intro cnt _; right; rfl
  | cons c rest ih =>
    intro cnt h
    rw [digitRunsAux] at h
    by_cases hc : c.isDigit
    · rw [if_pos hc, Bool.and_eq_true, decide_eq_true_eq] at h
      rw [List.takeWhile_cons, if_pos hc]
      rcases ih (cnt + 1) h.2 with h1 | h2
      · left; simp only [List.length_cons]; omega
      · left; simp only [List.length_cons, h2]; omega
    · rw [List.takeWhile_cons, if_neg hc]
      right
      rfl

theorem takeWhile_digit_le {k : Nat} {l : List Char} (h : digitRunsLe k l = true) :
    (l.takeWhile (fun c => c.isDigit)).length ≤ k := by
  rcases takeWhile_digit_le_of_aux k l 0 h with h1 | h2
  · omega
  · omega

theorem mem_takeWhile_digit {l : List Char} {c : Char}
    (h : c ∈ l.takeWhile (fun c => c.isDigit)) : c.isDigit = true := by
  induction l with
  | nil => simp [List.takeWhile] at h
  | cons a rest ih =>
    rw [List.takeWhile_cons] at h
    by_cases ha : a.isDigit
    · rw [if_pos ha] at h
      rcases List.mem_cons.mp h with rfl | hm
      · exact ha
      · exact ih hm
    · rw [if_neg ha] at h
      cases h

theorem dropWhile_digit_head {l : List Char} {c : Char}
    (h : (l.dropWhile (fun c => c.isDigit)).head? = some c) : c.isDigit = false := by
  induction l with
  | nil => simp [List.dropWhile] at h
  | cons a rest ih =>
    rw [List.dropWhile_cons] at h
    by_cases ha : a.isDigit
    · rw [if_pos ha] at h
      exact ih h
    · rw [if_neg ha] at h
      simp only [List.head?_cons, Option.some.injEq] at h
      subst h
      simpa using ha

theorem getLast?_append_right {u v : List Char} (hv : v ≠ []) :
    (u ++ v).getLast? = v.getLast? := by
  induction u with
  | nil => rfl
  | cons c u2 ih =>
    cases hx : u2 ++ v with
    | nil =>
      rcases List.append_eq_nil.mp hx with ⟨-, rfl⟩
      exact absurd rfl hv
    | cons a as =>
      show (c :: (u2 ++ v)).getLast? = _
      rw [hx, List.getLast?_cons_cons, ← hx, ih]

theorem getLast?_isSome_of_ne_nil : ∀ {v : List Char}, v ≠ [] → ∃ c, v.getLast? = some c := by
  intro v hv
  induction v with
  | nil => exact absurd rfl hv
  | cons a as ih =>
    cases as with
    | nil => exact ⟨a, rfl⟩
    | cons b bs =>
      obtain ⟨c, hc⟩ := ih (by simp)
      exact ⟨c, by rw [List.getLast?_cons_cons]; exact hc⟩

/-- The boundary form `digits(≤3) ++ nondigit ++ …` never starts a pattern
whose first four characters are digits. -/
theorem charsPre_false_run_boundary {p d : List Char} {c : Char} {r : List Char}
    (hp4 : 4 ≤ p.length) (hpd : ∀ e ∈ p.take 4, e.isDigit = true)
    (hdl : d.length ≤ 3) (hc : c.isDigit = false) :
    charsPre p (d ++ c :: r) = false := by
  cases hcp : charsPre p (d ++ c :: r) with
  | false => rfl
  | true =>
    exfalso
    obtain ⟨t, ht⟩ := (charsPre_eq_true_iff _ _).mp hcp
    obtain ⟨m, hm1, hm2⟩ := append_eq_append_of_le ht (by omega)
    cases m with
    | nil =>
      have := congrArg List.length hm1
      simp only [List.length_append, List.length_nil] at this
      omega
    | cons c2 m2 =>
      have hc2 : c2 = c := by
        have hh : (c :: r).head? = (c2 :: (m2 ++ t)).head? := by rw [hm2]; rfl
        simpa using hh.symm
      have hmem : c2 ∈ p.take 4 := by
        rw [hm1, List.take_append_eq_append_take, List.take_of_length_le (by omega)]
        refine List.mem_append_right _ ?_
        have h4 : 4 - d.length ≠ 0 := by omega
        cases hk : 4 - d.length with
        | zero => exact absurd hk h4
        | succ k => simp [List.take_succ_cons]
      have hdig := hpd c2 hmem
      rw [hc2, hc] at hdig
      cases hdig

/-- A run-capped block ending in a non-digit fails all windows of a
digit-fronted pattern. -/
theorem windowsFail_runcap {p x : List Char} (t : List Char)
    (hp4 : 4 ≤ p.length) (hpd : ∀ e ∈ p.take 4, e.isDigit = true)
    (hx : digitRunsLe 3 x = true) (hlast : ∀ c ∈ x.getLast?, c.isDigit = false) :
    WindowsFail p x t := by
  intro u v huv hv
  have hvr : digitRunsLe 3 v = true :=
    digitRunsAux_suffix 3 u v 0 (by rw [← huv]; exact hx)
  cases hdw : v.dropWhile (fun c => c.isDigit) with
  | nil =>
    exfalso
    have hvall : v.takeWhile (fun c => c.isDigit) = v := by
      conv_rhs => rw [← List.takeWhile_append_dropWhile (p := fun c => c.isDigit) (l := v)]
      rw [hdw, List.append_nil]
    obtain ⟨c, hcl⟩ := getLast?_isSome_of_ne_nil hv
    have hcv : c ∈ v := List.mem_of_getLast?_eq_some hcl
    have hcd : c.isDigit = true := mem_takeWhile_digit (by rw [hvall]; exact hcv)
    have hg : x.getLast? = v.getLast? := by rw [huv]; exact getLast?_append_right hv
    have := hlast c (by rw [hg, hcl]; rfl)
    rw [hcd] at this
    cases this
  | cons c r =>
    have hsplit : v = v.takeWhile (fun c => c.isDigit) ++ c :: r := by
      conv_lhs => rw [← List.takeWhile_append_dropWhile (p := fun c => c.isDigit) (l := v)]
      rw [hdw]
    rw [hsplit, List.append_assoc, List.cons_append]
    exact charsPre_false_run_boundary hp4 hpd (takeWhile_digit_le hvr)
      (dropWhile_digit_head (by rw [hdw]; rfl))

/-- A run-capped block at the very end of the text fails all windows of a
digit-fronted pattern (even with a trailing digit run). -/
theorem windowsFail_runcap_end {p x : List Char}
    (hp4 : 4 ≤ p.length) (hpd : ∀ e ∈ p.take 4, e.isDigit = true)
    (hx : digitRunsLe 3 x = true) : WindowsFail p x [] := by
  intro u v huv hv
  have hvr : digitRunsLe 3 v = true :=
    digitRunsAux_suffix 3 u v 0 (by rw [← huv]; exact hx)
  cases hdw : v.dropWhile (fun c => c.isDigit) with
  | nil =>
    have hvall : v.takeWhile (fun c => c.isDigit) = v := by
      conv_rhs => rw [← List.takeWhile_append_dropWhile (p := fun c => c.isDigit) (l := v)]
      rw [hdw, List.append_nil]
    refine charsPre_false_of_short ?_
    have hlen : v.length ≤ 3 := by
      have := takeWhile_digit_le hvr
      rw [hvall] at this
      exact this
    simp only [List.append_nil, List.length_append]
    omega
  | cons c r =>
    have hsplit : v = v.takeWhile (fun c => c.isDigit) ++ c :: r := by
      conv_lhs => rw [← List.takeWhile_append_dropWhile (p := fun c => c.isDigit) (l := v)]
      rw [hdw]
    rw [hsplit, List.append_assoc, List.cons_append]
    exact charsPre_false_run_boundary hp4 hpd (takeWhile_digit_le hvr)
      (dropWhile_digit_head (by rw [hdw]; rfl))

/-- A block none of whose characters can open the pattern fails all
windows. -/
theorem windowsFail_of_head_ne {p x : List Char} (t : List Char) (hp : p ≠ [])
    (hx : ∀ c ∈ x, ∀ d ∈ p.head?, d ≠ c) : WindowsFail p x t := by
  intro u v huv hv
  cases v with
  | nil => exact absurd rfl hv
  | cons c v2 =>
    have hc : c ∈ x := by
      rw [huv]
      exact List.mem_append_right _ (List.mem_cons_self _ _)
    cases p with
    | nil => exact absurd rfl hp
    | cons d p2 =>
      show (d == c && charsPre p2 (v2 ++ t)) = false
      have hne : (d == c) = false := by
        simp only [beq_eq_false_iff_ne, ne_eq]
        exact hx c hc d rfl
      rw [hne]
      rfl

/-- An eight-digit block distinct from an eight-digit pattern, with a
non-digit boundary, fails all windows. -/
theorem windowsFail_key8 {p x : List Char} (t : List Char)
    (hp : ∀ c ∈ p, c.isDigit = true) (hpl : p.length = 8)
    (hxl : x.length ≤ 8) (hne : ¬(x.length = 8 ∧ x = p))
    (ht : ∀ c ∈ t.head?, c.isDigit = false) : WindowsFail p x t := by
  intro u v huv hv
  cases hcp : charsPre p (v ++ t) with
  | false => rfl
  | true =>
    exfalso
    obtain ⟨r, hr⟩ := (charsPre_eq_true_iff _ _).mp hcp
    have hvlen : v.length ≤ 8 := by
      have := congrArg List.length huv
      simp only [List.length_append] at this
      omega
    by_cases hv8 : v.length = 8
    · have hu : u = [] := by
        have := congrArg List.length huv
        simp only [List.length_append] at this
        exact List.eq_nil_of_length_eq_zero (by omega)
      subst hu
      simp only [List.nil_append] at huv
      obtain ⟨he, -⟩ := eq_of_append_eq_append hr (by omega)
      exact hne ⟨by rw [huv]; exact hv8, by rw [huv, he]⟩
    · obtain ⟨m, hm1, hm2⟩ := append_eq_append_of_le hr (by omega)
      cases m with
      | nil =>
        have := congrArg List.length hm1
        simp only [List.length_append, List.length_nil] at this
        omega
      | cons c m2 =>
        have hcm : c ∈ p := by
          rw [hm1]
          exact List.mem_append_right _ (List.mem_cons_self _ _)
        have hth : t.head? = some c := by rw [hm2]; rfl
        have := ht c (by rw [hth]; rfl)
        rw [hp c hcm] at this
        cases this

/-- A digit block of at most eight characters, with a boundary that is no
digit and (unless the block equals the pattern's digits) not the trailing
`s`, fails all windows of a seconds-format pattern. -/
theorem windowsFail_key9 {pd x : List Char} (t : List Char)
    (hp : ∀ c ∈ pd, c.isDigit = true) (hpl : pd.length = 8)
    (hxl : x.length ≤ 8)
    (ht : ∀ c ∈ t.head?, c.isDigit = false)
    (hns : ¬(x = pd ∧ t.head? = some 's')) : WindowsFail (pd ++ ['s']) x t := by
  intro u v huv hv
  cases hcp : charsPre (pd ++ ['s']) (v ++ t) with
  | false => rfl
  | true =>
    exfalso
    obtain ⟨r, hr⟩ := (charsPre_eq_true_iff _ _).mp hcp
    have hvlen : v.length ≤ 8 := by
      have := congrArg List.length huv
      simp only [List.length_append] at this
      omega
    obtain ⟨m, hm1, hm2⟩ := append_eq_append_of_le hr
      (by simp only [List.length_append, List.length_cons, List.length_nil]; omega)
    by_cases hv8 : v.length = 8
    · have hu : u = [] := by
        have := congrArg List.length huv
        simp only [List.length_append] at this
        exact List.eq_nil_of_length_eq_zero (by omega)
      subst hu
      simp only [List.nil_append] at huv
      obtain ⟨hvpd, hms⟩ := eq_of_append_eq_append hm1.symm (by omega)
      have hts : t.head? = some 's' := by
        rw [hm2, hms]
        rfl
      exact hns ⟨by rw [huv, hvpd], hts⟩
    · cases m with
      | nil =>
        have := congrArg List.length hm1
        simp only [List.length_append, List.length_cons, List.length_nil] at this
        omega
      | cons c m2 =>
        have hcm : c ∈ pd := by
          have hle : v.length ≤ pd.length := by omega
          obtain ⟨m3, hm3, hm4⟩ := append_eq_append_of_le hm1.symm hle
          cases m3 with
          | nil =>
            have := congrArg List.length hm3
            simp only [List.length_append, List.length_nil] at this
            omega
          | cons c3 m4 =>
            have hc3 : c3 = c := by
              have hh : (c3 :: m4) ++ ['s'] = c :: m2 := hm4.symm
              simpa using congrArg List.head? hh
            rw [hm3, hc3]
            exact List.mem_append_right _ (List.mem_cons_self _ _)
        have hth : t.head? = some c := by rw [hm2]; rfl
        have := ht c (by rw [hth]; rfl)
        rw [hp c hcm] at this
        cases this

/-- A quoted slot with different digits fails all windows of a quoted
pattern. -/
theorem windowsFail_quotedslot {pd D : List Char} (t : List Char)
    (hpd : ∀ c ∈ pd, c.isDigit = true) (hpl : pd.length = 8)
    (hD : ∀ c ∈ D, c.isDigit = true) (hDl : D.length = 8) (hne : D ≠ pd)
    (ht : ∀ c ∈ t.head?, c.isDigit = false) :
    WindowsFail ('"' :: (pd ++ ['"'])) ('"' :: (D ++ ['"'])) t := by
  intro u v huv hv
  cases hcp : charsPre ('"' :: (pd ++ ['"'])) (v ++ t) with
  | false => rfl
  | true =>
    exfalso
    obtain ⟨r, hr⟩ := (charsPre_eq_true_iff _ _).mp hcp
    cases u with
    | nil =>
      simp only [List.nil_append] at huv
      obtain ⟨he, -⟩ := eq_of_append_eq_append hr
        (by rw [← huv]; simp [hDl, hpl])
      rw [← huv] at he
      simp only [List.cons.injEq, true_and] at he
      obtain ⟨hDpd, -⟩ := eq_of_append_eq_append he (by rw [hDl, hpl])
      exact hne hDpd
    | cons u0 u2 =>
      have hu0 : u0 = '"' := by
        have := congrArg List.head? huv
        simpa using this.symm
      have hrest : u2 ++ v = D ++ ['"'] := by
        have h2 := huv
        rw [hu0] at h2
        simp only [List.cons_append, List.cons.injEq, true_and] at h2
        exact h2.symm
      by_cases hul : u2.length ≤ D.length
      · obtain ⟨m, hm1, hm2⟩ := append_eq_append_of_le hrest hul
        cases m with
        | nil =>
          simp only [List.nil_append] at hm2
          rw [hm2] at hr
          simp only [List.cons_append, List.nil_append, List.cons.injEq] at hr
          obtain ⟨-, hr2⟩ := hr
          have hch : charsPre pd t = true := by
            have : t = pd ++ (['"'] ++ r) := by rw [hr2]; simp
            rw [this]
            exact charsPre_self_append _ _
          obtain ⟨r2, hr3⟩ := (charsPre_eq_true_iff _ _).mp hch
          cases hpd0 : pd with
          | nil => rw [hpd0] at hpl; simp at hpl
          | cons e pd2 =>
            have hth : t.head? = some e := by rw [hr3, hpd0]; rfl
            have := ht e (by rw [hth]; rfl)
            rw [hpd e (by rw [hpd0]; exact List.mem_cons_self _ _)] at this
            cases this
        | cons c m2 =>
          have hcD : c ∈ D := by
            rw [hm1]
            exact List.mem_append_right _ (List.mem_cons_self _ _)
          rw [hm2] at hr
          simp only [List.cons_append, List.cons.injEq] at hr
          obtain ⟨hcq, -⟩ := hr
          have := hD c hcD
          rw [hcq] at this
          exact absurd this (by decide)
      · exfalso
        have h1 := congrArg List.length hrest
        simp only [List.length_append, List.length_cons, List.length_nil] at h1
        have h2 : v.length ≥ 1 := by
          cases v with
          | nil => exact absurd rfl hv
          | cons a as => simp
        omega

/-- Any digit block with a boundary that is neither a digit nor `d` fails
all windows of a `1157d`-fronted pattern. -/
theorem windowsFail_durpat {p x : List Char} (t : List Char)
    (hp5 : p.take 5 = ['1', '1', '5', '7', 'd'])
    (hx : ∀ c ∈ x, c.isDigit = true)
    (ht : ∀ c ∈ t.head?, c.isDigit = false ∧ c ≠ 'd') : WindowsFail p x t := by
  have hplen : 5 ≤ p.length := by
    have := congrArg List.length hp5
    simp only [List.length_take, List.length_cons, List.length_nil] at this
    omega
  intro u v huv hv
  have hvd : ∀ c ∈ v, c.isDigit = true := by
    intro c hc
    exact hx c (by rw [huv]; exact List.mem_append_right _ hc)
  cases hcp : charsPre p (v ++ t) with
  | false => rfl
  | true =>
    exfalso
    obtain ⟨r, hr⟩ := (charsPre_eq_true_iff _ _).mp hcp
    rcases Nat.lt_or_ge v.length 4 with h3 | h4
    · obtain ⟨m, hm1, hm2⟩ := append_eq_append_of_le hr (by omega)
      cases m with
      | nil =>
        have := congrArg List.length hm1
        simp only [List.length_append, List.length_nil] at this
        omega
      | cons c m2 =>
        have hmem : c ∈ p.take 4 := by
          rw [hm1, List.take_append_eq_append_take, List.take_of_length_le (by omega)]
          refine List.mem_append_right _ ?_
          have hk4 : 4 - v.length ≠ 0 := by omega
          cases hk : 4 - v.length with
          | zero => exact absurd hk hk4
          | succ k => simp [List.take_succ_cons]
        have hdig : c.isDigit = true := by
          have htk : p.take 4 = ['1', '1', '5', '7'] := by
            have : p.take 4 = (p.take 5).take 4 := by
              simp [List.take_take]
            rw [this, hp5]
            rfl
          rw [htk] at hmem
          simp only [List.mem_cons, List.not_mem_nil, or_false] at hmem
          rcases hmem with rfl | rfl | rfl | rfl <;> decide
        have hth : t.head? = some c := by rw [hm2]; rfl
        have := (ht c (by rw [hth]; rfl)).1
        rw [hdig] at this
        cases this
    · rcases Nat.eq_or_lt_of_le h4 with h44 | h5
      · obtain ⟨m, hm1, hm2⟩ := append_eq_append_of_le hr (by omega)
        have hv1157 : v = ['1', '1', '5', '7'] := by
          have : p.take 4 = v := by
            rw [hm1, List.take_append_eq_append_take,
              List.take_of_length_le (by omega)]
            have : 4 - v.length = 0 := by omega
            rw [this]
            simp
          have htk : p.take 4 = ['1', '1', '5', '7'] := by
            rw [show p.take 4 = (p.take 5).take 4 from by simp [List.take_take], hp5]
            rfl
          rw [← this, htk]
        have h7 : ('7' : Char) ∈ v := by rw [hv1157]; decide
        have := hvd '7' h7
        have hm5 : m.head? = some 'd' := by
          have hps : p = (p.take 5) ++ p.drop 5 := by rw [List.take_append_drop]
          rw [hp5] at hps
          have : v ++ m = ['1', '1', '5', '7', 'd'] ++ p.drop 5 := by rw [← hm1]; exact hps
          rw [hv1157] at this
          have hm6 : m = 'd' :: p.drop 5 := by simpa using this
          rw [hm6]
          rfl
        cases hm : m with
        | nil => rw [hm] at hm5; cases hm5
        | cons d0 m2 =>
          have hd0 : d0 = 'd' := by
            rw [hm] at hm5
            simpa using hm5
          have hth : t.head? = some 'd' := by rw [hm2, hm, hd0]; rfl
          exact (ht 'd' (by rw [hth]; rfl)).2 rfl
      · have hsplit : (p.take 5) ++ ((p.drop 5) ++ r) = v ++ t := by
          rw [← List.append_assoc, List.take_append_drop]
          exact hr.symm
        obtain ⟨m, hm1, hm2⟩ := append_eq_append_of_le hsplit
          (by simp only [List.length_take]; omega)
        have hdv : ('d' : Char) ∈ v := by
          rw [hm1, hp5]
          exact List.mem_append_left _ (by decide)
        have := hvd 'd' hdv
        exact absurd this (by decide)

/-- A text containing the pattern contains it. -/
theorem containsSub_of_middle (p : List Char) (hp : p ≠ []) :
    ∀ (u v : List Char), containsSub p (u ++ (p ++ v)) = true := by
  intro u
  induction u with
  | nil =>
    intro v
    simp only [List.nil_append]
    cases hq : p ++ v with
    | nil =>
      rcases List.append_eq_nil.mp hq with ⟨rfl, -⟩
      exact absurd rfl hp
    | cons a as =>
      show (charsPre p (a :: as) || containsSub p as) = true
      rw [← hq, charsPre_self_append]
      rfl
  | cons c u2 ih =>
    intro v
    show (charsPre p _ || containsSub p (u2 ++ (p ++ v))) = true
    rw [ih v]
    simp


/-! ## Composition of allocator runs across the three encode passes. -/

theorem firstReqs_append (a b : List (List Char × PhFmt × Bool)) :
    ∀ seen, firstReqs seen (a ++ b) =
      firstReqs seen a ++ firstReqs (seen ++ (firstReqs seen a).map Prod.fst) b := by
  induction a with
  | nil => intro seen; simp [firstReqs]
  | cons r rest ih =>
    intro seen
    by_cases hs : r.1 ∈ seen
    · show firstReqs seen (r :: (rest ++ b)) = _
      simp only [firstReqs, hs, if_true, ih seen]
    · show firstReqs seen (r :: (rest ++ b)) = _
      simp only [firstReqs, hs, if_false, ih (seen ++ [r.1]), List.map_cons,
        List.cons_append, List.append_assoc, List.singleton_append, List.nil_append]

theorem runAllocs_append (a b : List (List Char × PhFmt × Bool)) :
    ∀ s, runAllocs (a ++ b) s =
      ((runAllocs a s).1 ++ (runAllocs b (runAllocs a s).2).1,
        (runAllocs b (runAllocs a s).2).2) := by
  induction a with
  | nil => intro s; simp [runAllocs]
  | cons r rest ih =>
    intro s
    show runAllocs (r :: (rest ++ b)) s = _
    simp only [runAllocs, ih (allocStep r s).2, List.cons_append]

/-- The memo table after a request run: the assignment extends by the new
first occurrences. -/
theorem runAllocs_varToPh (b : Nat) (rs : List (List Char × PhFmt × Bool)) :
    ∀ (pre : List (List Char × PhFmt)) (s : EncState)
      (hv : s.varToPh = assignTable b pre) (hc : s.counter = b + pre.length),
      (runAllocs rs s).2.varToPh =
        assignTable b (pre ++ firstReqs (pre.map Prod.fst) rs) := by
  induction rs with
  | nil =>
    intro pre s hv hc
    simp [runAllocs, firstReqs, hv]
  | cons r rest ih =>
    intro pre s hv hc
    by_cases hseen : r.1 ∈ pre.map Prod.fst
    · have hsome : ∃ ph, s.varToPh.lookup r.1 = some ph := by
        rcases hx : s.varToPh.lookup r.1 with _ | ph
        · rw [hv, lookup_eq_none_iff, assignTable_keys] at hx
          exact absurd hseen hx
        · exact ⟨ph, rfl⟩
      obtain ⟨ph, hph⟩ := hsome
      have hstep : allocStep r s = (ph, s) := by
        cases hb : r.2.2 <;> simp [allocStep, hb, getPlaceholder, getPlaceholderQuoted, hph]
      have hfr : firstReqs (pre.map Prod.fst) (r :: rest) =
          firstReqs (pre.map Prod.fst) rest := by
        simp [firstReqs, hseen]
      show (runAllocs rest (allocStep r s).2).2.varToPh = _
      rw [hstep, hfr]
      exact ih pre s hv hc
    · have hnone : s.varToPh.lookup r.1 = none := by
        rw [hv, lookup_eq_none_iff, assignTable_keys]
        exact hseen
      have hstep : allocStep r s =
          (applyPhFmt r.2.1 s.counter,
            ⟨s.varToPh ++ [(r.1, applyPhFmt r.2.1 s.counter)],
              s.replacements ++ [(applyPhFmt r.2.1 s.counter, r.1)],
              if r.2.2 then s.quotedPhs ++ [applyPhFmt r.2.1 s.counter] else s.quotedPhs,
              s.counter + 1⟩) := by
        cases hb : r.2.2 <;>
          simp [allocStep, hb, getPlaceholder, getPlaceholderQuoted, hnone]
      have hv' : (allocStep r s).2.varToPh = assignTable b (pre ++ [(r.1, r.2.1)]) := by
        rw [hstep, hv, assignTable_append, hc]
        rfl
      have hc' : (allocStep r s).2.counter = b + (pre ++ [(r.1, r.2.1)]).length := by
        rw [hstep]
        show s.counter + 1 = _
        rw [hc]
        simp only [List.length_append, List.length_cons, List.length_nil]
        omega
      have hfr : firstReqs (pre.map Prod.fst) (r :: rest) =
          (r.1, r.2.1) :: firstReqs (pre.map Prod.fst ++ [r.1]) rest := by
        simp [firstReqs, hseen]
      have hkeys : (pre ++ [(r.1, r.2.1)]).map Prod.fst = pre.map Prod.fst ++ [r.1] := by
        simp
      show (runAllocs rest (allocStep r s).2).2.varToPh = _
      rw [ih (pre ++ [(r.1, r.2.1)]) (allocStep r s).2 hv' hc', hkeys, hfr]
      congr 1
      simp

/-- Lookups in a prefix of the assignment survive its extension. -/
theorem assignTable_lookup_mono {b : Nat} {l1 : List (List Char × PhFmt)}
    (l2 : List (List Char × PhFmt)) {v ph : List Char}
    (h : (assignTable b l1).lookup v = some ph) :
    (assignTable b (l1 ++ l2)).lookup v = some ph := by
  rw [assignTable_append, lookup_append, h]

/-- First-occurrence requests with their quote flags kept. -/
def firstReqsQ (seen : List (List Char)) :
    List (List Char × PhFmt × Bool) → List (List Char × PhFmt × Bool)
  | [] => []
  | r :: rest =>
    if r.1 ∈ seen then firstReqsQ seen rest
    else r :: firstReqsQ (seen ++ [r.1]) rest

theorem firstReqsQ_proj :
    ∀ (rs : List (List Char × PhFmt × Bool)) (seen : List (List Char)),
      (firstReqsQ seen rs).map (fun r => (r.1, r.2.1)) = firstReqs seen rs := by
  intro rs
  induction rs with
  | nil => intro seen; rfl
  | cons r rest ih =>
    intro seen
    by_cases hs : r.1 ∈ seen
    · simp only [firstReqsQ, firstReqs, hs, if_true, ih seen]
    · simp only [firstReqsQ, firstReqs, hs, if_false, List.map_cons, ih (seen ++ [r.1])]

theorem firstReqsQ_mem :
    ∀ (rs : List (List Char × PhFmt × Bool)) (seen : List (List Char))
      (p : List Char × PhFmt × Bool), p ∈ firstReqsQ seen rs → p ∈ rs := by
  intro rs
  induction rs with
  | nil => intro seen p hp; simp [firstReqsQ] at hp
  | cons r rest ih =>
    intro seen p hp
    unfold firstReqsQ at hp
    by_cases hs : r.1 ∈ seen
    · rw [if_pos hs] at hp
      exact List.mem_cons_of_mem _ (ih seen p hp)
    · rw [if_neg hs] at hp
      rcases List.mem_cons.mp hp with rfl | hmem
      · exact List.mem_cons_self _ _
      · exact List.mem_cons_of_mem _ (ih _ p hmem)

/-- The quote-marked placeholders arising from a flagged first-occurrence
list allocated from a counter base. -/
def quotedOf (base : Nat) : List (List Char × PhFmt × Bool) → List (List Char)
  | [] => []
  | r :: rest => (if r.2.2 then [applyPhFmt r.2.1 base] else []) ++ quotedOf (base + 1) rest

/-- During a request run the quote metadata grows by exactly the flagged
new first occurrences' placeholders. -/
theorem runAllocs_quotedPhs (b : Nat) (rs : List (List Char × PhFmt × Bool)) :
    ∀ (seen : List (List Char)) (s : EncState),
      s.varToPh.map Prod.fst = seen → s.counter = b + seen.length →
      (runAllocs rs s).2.quotedPhs =
        s.quotedPhs ++ quotedOf (b + seen.length) (firstReqsQ seen rs) := by
  induction rs with
  | nil =>
    intro seen s hk hc
    simp [runAllocs, firstReqsQ, quotedOf]
  | cons r rest ih =>
    intro seen s hk hc
    by_cases hseen : r.1 ∈ seen
    · have hsome : ∃ ph, s.varToPh.lookup r.1 = some ph := by
        rcases hx : s.varToPh.lookup r.1 with _ | ph
        · rw [lookup_eq_none_iff, hk] at hx
          exact absurd hseen hx
        · exact ⟨ph, rfl⟩
      obtain ⟨ph, hph⟩ := hsome
      have hstep : allocStep r s = (ph, s) := by
        cases hb : r.2.2 <;> simp [allocStep, hb, getPlaceholder, getPlaceholderQuoted, hph]
      have hfr : firstReqsQ seen (r :: rest) = firstReqsQ seen rest := by
        simp [firstReqsQ, hseen]
      show (runAllocs rest (allocStep r s).2).2.quotedPhs = _
      rw [hstep, hfr]
      exact ih seen s hk hc
    · have hnone : s.varToPh.lookup r.1 = none := by
        rw [lookup_eq_none_iff, hk]
        exact hseen
      have hstep : allocStep r s =
          (applyPhFmt r.2.1 s.counter,
            ⟨s.varToPh ++ [(r.1, applyPhFmt r.2.1 s.counter)],
              s.replacements ++ [(applyPhFmt r.2.1 s.counter, r.1)],
              if r.2.2 then s.quotedPhs ++ [applyPhFmt r.2.1 s.counter] else s.quotedPhs,
              s.counter + 1⟩) := by
        cases hb : r.2.2 <;>
          simp [allocStep, hb, getPlaceholder, getPlaceholderQuoted, hnone]
      have hk' : (allocStep r s).2.varToPh.map Prod.fst = seen ++ [r.1] := by
        rw [hstep]
        show (s.varToPh ++ [(r.1, applyPhFmt r.2.1 s.counter)]).map Prod.fst = _
        rw [List.map_append, hk]
        rfl
      have hc' : (allocStep r s).2.counter = b + (seen ++ [r.1]).length := by
        rw [hstep]
        show s.counter + 1 = _
        rw [hc]
        simp only [List.length_append, List.length_cons, List.length_nil]
        omega
      have hfr : firstReqsQ seen (r :: rest) = r :: firstReqsQ (seen ++ [r.1]) rest := by
        simp [firstReqsQ, hseen]
      show (runAllocs rest (allocStep r s).2).2.quotedPhs = _
      rw [ih (seen ++ [r.1]) (allocStep r s).2 hk' hc', hfr]
      rw [hstep]
      show (if r.2.2 then s.quotedPhs ++ [applyPhFmt r.2.1 s.counter] else s.quotedPhs) ++
          quotedOf (b + (seen ++ [r.1]).length) (firstReqsQ (seen ++ [r.1]) rest) = _
      have hlen : b + (seen ++ [r.1]).length = b + seen.length + 1 := by
        simp only [List.length_append, List.length_cons, List.length_nil]
        omega
      rw [hlen, hc]
      show _ = s.quotedPhs ++
        ((if r.2.2 then [applyPhFmt r.2.1 (b + seen.length)] else []) ++
          quotedOf (b + seen.length + 1) (firstReqsQ (seen ++ [r.1]) rest))
      cases hb : r.2.2 <;> simp [hc]

/-- The two LogQL placeholder formats. -/
def logFmt (f : PhFmt) : Bool := f == PhFmt.bare || f == PhFmt.seconds

theorem applyPhFmt_digits {f : PhFmt} (hf : logFmt f = true) (n : Nat) :
    ∃ d, applyPhFmt f n = d ++ (if f = PhFmt.seconds then ['s'] else []) ∧
      d = natToDigits n := by
  cases f with
  | bare => exact ⟨natToDigits n, by simp [applyPhFmt], rfl⟩
  | seconds => exact ⟨natToDigits n, by simp [applyPhFmt], rfl⟩
  | metricV => simp [logFmt] at hf

theorem applyPhFmt_head_digit {f : PhFmt} (hf : logFmt f = true) (n : Nat) :
    ∀ c ∈ (applyPhFmt f n).head?, c.isDigit = true := by
  intro c hc
  cases f with
  | bare =>
    have : (applyPhFmt PhFmt.bare n).head? = (natToDigits n).head? := rfl
    rw [this] at hc
    exact natToDigits_head_isDigit n c hc
  | seconds =>
    have hne := natToDigits_nonempty n
    cases hd : natToDigits n with
    | nil => exact absurd hd hne
    | cons a as =>
      have : (applyPhFmt PhFmt.seconds n).head? = some a := by
        show (natToDigits n ++ [Char.ofNat 115]).head? = some a
        rw [hd]
        rfl
      rw [this] at hc
      have hca : a = c := by simpa using hc
      rw [← hca]
      exact natToDigits_head_isDigit n a (by rw [hd]; rfl)
  | metricV => simp [logFmt] at hf

theorem applyPhFmt_ne_nil {f : PhFmt} (hf : logFmt f = true) (n : Nat) :
    applyPhFmt f n ≠ [] := by
  intro hEq
  cases f with
  | bare => exact natToDigits_nonempty n hEq
  | seconds =>
    have : natToDigits n ++ ['s'] = [] := hEq
    rcases List.append_eq_nil.mp this with ⟨h1, -⟩
    exact natToDigits_nonempty n h1
  | metricV => simp [logFmt] at hf

theorem applyPhFmt_inj {f1 f2 : PhFmt} (h1 : logFmt f1 = true) (h2 : logFmt f2 = true)
    {n1 n2 : Nat} (h : applyPhFmt f1 n1 = applyPhFmt f2 n2) : f1 = f2 ∧ n1 = n2 := by
  have hss : ∀ m1 m2 : Nat, natToDigits m1 ++ ['s'] = natToDigits m2 ++ ['s'] → m1 = m2 := by
    intro m1 m2 hEq
    have hl : (natToDigits m1).length = (natToDigits m2).length := by
      have := congrArg List.length hEq
      simp only [List.length_append, List.length_cons, List.length_nil] at this
      omega
    obtain ⟨hd, -⟩ := eq_of_append_eq_append hEq hl
    exact natToDigits_injective hd
  have hbs : ∀ m1 m2 : Nat, natToDigits m1 ≠ natToDigits m2 ++ ['s'] := by
    intro m1 m2 hEq
    have hs : ('s' : Char) ∈ natToDigits m1 := by
      rw [hEq]
      exact List.mem_append_right _ (List.mem_cons_self _ _)
    have := natToDigits_isDigit m1 's' hs
    exact absurd this (by decide)
  cases f1 with
  | bare =>
    cases f2 with
    | bare => exact ⟨rfl, natToDigits_injective h⟩
    | seconds => exact absurd h (hbs n1 n2)
    | metricV => simp [logFmt] at h2
  | seconds =>
    cases f2 with
    | bare => exact absurd h.symm (hbs n2 n1)
    | seconds => exact ⟨rfl, hss n1 n2 h⟩
    | metricV => simp [logFmt] at h2
  | metricV => simp [logFmt] at h1

/-- Mixed-format refinement of the table pairing: every assignment entry
is a log-format counter rendering whose inverse entry returns the original
text, and the entry's text/format pair is among the firsts. -/
theorem table_pair2 :
    ∀ (fr : List (List Char × PhFmt)), (∀ p ∈ fr, logFmt p.2 = true) →
      ∀ (b : Nat) (v ph : List Char), (assignTable b fr).lookup v = some ph →
        ∃ j f, j < fr.length ∧ logFmt f = true ∧ ph = applyPhFmt f (b + j) ∧
          (invTable b fr).lookup ph = some v ∧ (v, f) ∈ fr := by
  intro fr
  induction fr with
  | nil => intro _ b v ph h; simp [assignTable, List.lookup] at h
  | cons p rest ih =>
    intro hf b v ph h
    have hlog : logFmt p.2 = true := hf p (List.mem_cons_self _ _)
    rw [show assignTable b (p :: rest) =
      (p.1, applyPhFmt p.2 b) :: assignTable (b + 1) rest from rfl] at h
    by_cases hv : (v == p.1) = true
    · simp only [List.lookup, hv, Option.some.injEq] at h
      refine ⟨0, p.2, by simp, hlog, by rw [← h, Nat.add_zero], ?_, ?_⟩
      · rw [show invTable b (p :: rest) =
          (applyPhFmt p.2 b, p.1) :: invTable (b + 1) rest from rfl]
        have hbeq : (ph == applyPhFmt p.2 b) = true := by
          rw [← h]
          exact beq_self_eq_true _
        simp only [List.lookup, hbeq]
        rw [eq_of_beq hv]
      · rw [eq_of_beq hv]
        exact List.mem_cons_self _ _
    · simp only [List.lookup, hv] at h
      obtain ⟨j, f, hj, hflog, hph, hlook, hmem⟩ := ih
        (fun p2 h2 => hf p2 (List.mem_cons_of_mem _ h2)) (b + 1) v ph h
      refine ⟨j + 1, f, by simpa using Nat.succ_lt_succ hj, hflog, ?_, ?_, ?_⟩
      · rw [hph]
        congr 1
        omega
      · rw [show invTable b (p :: rest) =
          (applyPhFmt p.2 b, p.1) :: invTable (b + 1) rest from rfl]
        have hne : (ph == applyPhFmt p.2 b) = false := by
          refine beq_eq_false_iff_ne.mpr ?_
          rw [hph]
          intro hEq
          obtain ⟨-, hn⟩ := applyPhFmt_inj hflog hlog hEq
          omega
        simp only [List.lookup, hne]
        exact hlook
      · exact List.mem_cons_of_mem _ hmem

/-- Mixed-format shape of the inverse-table keys. -/
theorem invTable_keys_shape2 :
    ∀ (fr : List (List Char × PhFmt)), (∀ p ∈ fr, logFmt p.2 = true) →
      ∀ (b : Nat) (ph : List Char), ph ∈ (invTable b fr).map Prod.fst →
        ∃ j f, j < fr.length ∧ logFmt f = true ∧ ph = applyPhFmt f (b + j) := by
  intro fr
  induction fr with
  | nil => intro _ b ph h; simp [invTable] at h
  | cons p rest ih =>
    intro hf b ph h
    rw [show invTable b (p :: rest) =
      (applyPhFmt p.2 b, p.1) :: invTable (b + 1) rest from rfl] at h
    simp only [List.map_cons, List.mem_cons] at h
    rcases h with rfl | hmem
    · exact ⟨0, p.2, by simp, hf p (List.mem_cons_self _ _), rfl⟩
    · obtain ⟨j, f, hj, hflog, hph⟩ :=
        ih (fun p2 h2 => hf p2 (List.mem_cons_of_mem _ h2)) (b + 1) ph hmem
      refine ⟨j + 1, f, by simpa using Nat.succ_lt_succ hj, hflog, ?_⟩
      rw [hph]
      congr 1
      omega

/-- The inverse-table keys are pairwise distinct. -/
theorem invTable_keys_nodup :
    ∀ (fr : List (List Char × PhFmt)), (∀ p ∈ fr, logFmt p.2 = true) →
      ∀ b, ((invTable b fr).map Prod.fst).Nodup := by
  intro fr
  induction fr with
  | nil => intro _ b; simp [invTable]
  | cons p rest ih =>
    intro hf b
    rw [show invTable b (p :: rest) =
      (applyPhFmt p.2 b, p.1) :: invTable (b + 1) rest from rfl]
    rw [List.map_cons, List.nodup_cons]
    refine ⟨?_, ih (fun p2 h2 => hf p2 (List.mem_cons_of_mem _ h2)) (b + 1)⟩
    intro hmem
    obtain ⟨j, f, hj, hflog, hph⟩ :=
      invTable_keys_shape2 rest (fun p2 h2 => hf p2 (List.mem_cons_of_mem _ h2))
        (b + 1) _ hmem
    obtain ⟨-, hn⟩ := applyPhFmt_inj (hf p (List.mem_cons_self _ _)) hflog hph
    omega

theorem takeWhile_eq_self_of_all {p : Char → Bool} :
    ∀ {l : List Char}, (∀ c ∈ l, p c = true) → l.takeWhile p = l := by
  intro l
  induction l with
  | nil => intro _; rfl
  | cons c rest ih =>
    intro h
    rw [List.takeWhile_cons, if_pos (h c (List.mem_cons_self _ _)),
      ih (fun c2 h2 => h c2 (List.mem_cons_of_mem _ h2))]

/-- Scanning a counter rendering recovers the counter. -/
theorem parseDecimal_natToDigits (n : Nat) : parseDecimal (natToDigits n) = some n := by
  unfold parseDecimal
  rw [takeWhile_eq_self_of_all (fun c hc => natToDigits_isDigit n c hc)]
  rw [if_neg (by
    intro h0
    exact natToDigits_nonempty n (List.eq_nil_of_length_eq_zero h0))]
  exact congrArg some (natToDigits_val n)

/-- In the reserved counter range every normalized duration rendering
starts with `1157d`. -/
theorem formatLogQLDuration_take5 {c : Nat} (hc1 : 99990000 ≤ c) (hc2 : c < 100000000) :
    (formatLogQLDuration c).take 5 = ['1', '1', '5', '7', 'd'] ∧
      5 ≤ (formatLogQLDuration c).length := by
  have hd : c / 86400 = 1157 := by omega
  have h1157 : natToDigits 1157 = ['1', '1', '5', '7'] := by decide
  unfold formatLogQLDuration
  dsimp only
  rw [hd, h1157, if_pos (by decide : (1157 : Nat) > 0)]
  constructor
  · split_ifs <;> simp [List.take_succ_cons]
  · split_ifs <;>
      (simp only [List.cons_append, List.nil_append, List.length_append,
        List.length_cons]; omega)

/-- Marker-table lookups: a marker key hits exactly the quote-marked
placeholders. -/
theorem markers_lookup (tv : List (List Char)) (k : List Char) :
    (tv.map (fun ph => (quotedKeyPrefix ++ ph, ['t', 'r', 'u', 'e']))).lookup
        (quotedKeyPrefix ++ k) =
      if k ∈ tv then some ['t', 'r', 'u', 'e'] else none := by
  induction tv with
  | nil => simp [List.lookup]
  | cons ph rest ih =>
    by_cases h : k = ph
    · subst h
      simp [List.lookup]
    · have hne : (quotedKeyPrefix ++ k == quotedKeyPrefix ++ ph) = false := by
        refine beq_eq_false_iff_ne.mpr ?_
        intro hEq
        exact h (List.append_cancel_left hEq)
      simp only [List.map_cons, List.lookup, hne, ih]
      by_cases hm : k ∈ rest
      · rw [if_pos hm, if_pos (List.mem_cons_of_mem _ hm)]
      · rw [if_neg hm, if_neg (by
          intro hc
          rcases List.mem_cons.mp hc with h1 | h1
          · exact h h1
          · exact hm h1)]

/-- A marker key never hits the mixed-format inverse table. -/
theorem quoted_lookup_none2 (fr : List (List Char × PhFmt))
    (hf : ∀ p ∈ fr, logFmt p.2 = true) (b : Nat) (ph : List Char) :
    (invTable b fr).lookup (quotedKeyPrefix ++ ph) = none := by
  rw [lookup_eq_none_iff]
  intro hmem
  obtain ⟨j, f, hj, hflog, hEq⟩ := invTable_keys_shape2 fr hf b _ hmem
  have hhead : (quotedKeyPrefix ++ ph).head? = some '_' := rfl
  rw [hEq] at hhead
  have := applyPhFmt_head_digit hflog (b + j) '_' (by rw [hhead]; rfl)
  exact absurd this (by decide)

/-- The sorted placeholder list of the full replacements table (inverse
table plus markers) is a permutation of the inverse table's keys. -/
theorem sortPlaceholders_perm2 (fr : List (List Char × PhFmt))
    (hf : ∀ p ∈ fr, logFmt p.2 = true) (b : Nat) (tv : List (List Char)) :
    List.Perm
      (sortLogQLPlaceholdersByLength
        (invTable b fr ++ tv.map (fun ph => (quotedKeyPrefix ++ ph, ['t', 'r', 'u', 'e']))))
      ((invTable b fr).map Prod.fst) := by
  unfold sortLogQLPlaceholdersByLength
  have hmap : ((invTable b fr ++
      tv.map (fun ph => (quotedKeyPrefix ++ ph, ['t', 'r', 'u', 'e']))).map Prod.fst) =
      (invTable b fr).map Prod.fst ++ tv.map (fun ph => quotedKeyPrefix ++ ph) := by
    rw [List.map_append, List.map_map]
    rfl
  rw [hmap, List.filter_append]
  have h1 : ((invTable b fr).map Prod.fst).filter
      (fun k => !(charsPre quotedKeyPrefix k)) = (invTable b fr).map Prod.fst := by
    rw [List.filter_eq_self]
    intro k hk
    obtain ⟨j, f, hj, hflog, hEq⟩ := invTable_keys_shape2 fr hf b k hk
    rw [hEq, charsPre_quotedKeyPrefix_false _ (fun c hc =>
      applyPhFmt_head_digit hflog (b + j) c hc)]
    rfl
  have h2 : (tv.map (fun ph => quotedKeyPrefix ++ ph)).filter
      (fun k => !(charsPre quotedKeyPrefix k)) = [] := by
    rw [List.filter_eq_nil]
    intro k hk
    obtain ⟨ph, -, rfl⟩ := List.mem_map.mp hk
    rw [charsPre_self_append]
    simp
  rw [h1, h2, List.append_nil]
  exact List.mergeSort_perm _ _


/-! ## The extended supported-placement class: generic, range-duration and
label-value occurrences mixed in one query. -/

/-- The operator alternatives of the label-value pattern. -/
inductive LVOp where
  | opEq | opEqT | opBang | opBangEq | opBangT | opBangEqT
  deriving DecidableEq, Repr

/-- The operator text. -/
def opTextOf : LVOp → List Char
  | LVOp.opEq => ['=']
  | LVOp.opEqT => ['=', '~']
  | LVOp.opBang => ['!']
  | LVOp.opBangEq => ['!', '=']
  | LVOp.opBangT => ['!', '~']
  | LVOp.opBangEqT => ['!', '=', '~']

/-- One supported variable placement: a generic occurrence, a range
duration `[$var]`, or a label-value occurrence `name op value` with a
quoted or bare variable value. -/
inductive GItem where
  | gvar : VarTok → GItem
  | gdur : VarTok → GItem
  | glv : List Char → LVOp → Bool → VarTok → GItem
  deriving DecidableEq, Repr

/-- The variable token of an item. -/
def gTok : GItem → VarTok
  | GItem.gvar tok => tok
  | GItem.gdur tok => tok
  | GItem.glv _ _ _ tok => tok

/-- The original query text of an item. -/
def gItemText : GItem → List Char
  | GItem.gvar tok => varText tok
  | GItem.gdur tok => '[' :: (varText tok ++ [']'])
  | GItem.glv n op q tok =>
    n ++ (opTextOf op ++ (if q then '"' :: (varText tok ++ ['"']) else varText tok))

/-- A query of the extended class: a leading fixed segment, then
alternating placement items and fixed segments. -/
structure GQuery where
  pre : List Char
  items : List (GItem × List Char)
  deriving DecidableEq, Repr

/-- The flattened item/segment text. -/
def gItemsText : List (GItem × List Char) → List Char
  | [] => []
  | (it, seg) :: rest => gItemText it ++ (seg ++ gItemsText rest)

/-- The query text. -/
def gQueryText (q : GQuery) : List Char := q.pre ++ gItemsText q.items

/-- The allocator requests issued by the duration pass, in item order. -/
def durReqs (items : List (GItem × List Char)) : List (List Char × PhFmt × Bool) :=
  items.filterMap (fun it =>
    match it.1 with
    | GItem.gdur tok => some (varText tok, PhFmt.seconds, false)
    | _ => none)

/-- The allocator requests issued by the label-value pass, in item order. -/
def lvReqs (items : List (GItem × List Char)) : List (List Char × PhFmt × Bool) :=
  items.filterMap (fun it =>
    match it.1 with
    | GItem.glv _ _ q tok => some (varText tok, PhFmt.bare, q)
    | _ => none)

/-- The allocator requests issued by the general pass, in item order. -/
def genReqs (items : List (GItem × List Char)) : List (List Char × PhFmt × Bool) :=
  items.filterMap (fun it =>
    match it.1 with
    | GItem.gvar tok => some (varText tok, PhFmt.bare, false)
    | _ => none)

/-- All requests of one Encode call, in pass order. -/
def allReqs (items : List (GItem × List Char)) : List (List Char × PhFmt × Bool) :=
  durReqs items ++ lvReqs items ++ genReqs items

/-- Characters allowed in fixed segments: no `$`, no `"`. -/
def gSegChar (c : Char) : Bool := !(c == '$') && !(c == '"')

/-- Characters allowed inside a braced variable: no `}`, `$` or `"`. -/
def gInnerChar (c : Char) : Bool := !(c == '}') && !(c == '$') && !(c == '"')

/-- Well-formed variable token: nonempty, word characters (word form) or
brace-free characters (braced form), digit runs of length at most 3. -/
def gTokOK : VarTok → Bool
  | VarTok.word n => !n.isEmpty && n.all isWordChar && digitRunsLe 3 n
  | VarTok.braced i => !i.isEmpty && i.all gInnerChar && digitRunsLe 3 i

/-- Well-formed label name: nonempty word run, digit runs at most 3, not
starting with a digit. -/
def gNameOK (n : List Char) : Bool :=
  !n.isEmpty && n.all isWordChar && digitRunsLe 3 n &&
    (match n.head? with
     | some c => !c.isDigit
     | none => false)

/-- The six operator texts of `(=~?|!=?~?)`. -/
def validOps : List (List Char) :=
  [['='], ['=', '~'], ['!'], ['!', '='], ['!', '~'], ['!', '=', '~']]

theorem opTextOf_mem_validOps (op : LVOp) : opTextOf op ∈ validOps := by
  cases op <;> simp [opTextOf, validOps]

theorem validOps_spec {o : List Char} (ho : o ∈ validOps) :
    o ≠ [] ∧ ∀ c ∈ o, c = '=' ∨ c = '~' ∨ c = '!' := by
  unfold validOps at ho
  simp only [List.mem_cons, List.not_mem_nil, or_false] at ho
  rcases ho with rfl | rfl | rfl | rfl | rfl | rfl <;>
    exact ⟨by simp, by
      intro c hc
      simp only [List.mem_cons, List.not_mem_nil, or_false] at hc
      tauto⟩

/-- Operator characters. -/
def isOpChar (c : Char) : Bool := c == '=' || c == '~' || c == '!'

/-- The characters that can appear strictly before the value of a
label-value match: word characters, spaces and operator characters. -/
def matchPreChar (c : Char) : Bool := isWordChar c || isSpaceChar c || isOpChar c

theorem word_not_space {c : Char} (h : isWordChar c = true) : isSpaceChar c = false := by
  cases hs : isSpaceChar c with
  | false => rfl
  | true =>
    exfalso
    unfold isSpaceChar at hs
    simp only [Bool.or_eq_true, beq_iff_eq] at hs
    rcases hs with ((((rfl | rfl) | rfl) | rfl) | rfl) <;> exact absurd h (by decide)

theorem opChar_not_word {c : Char} (h : c = '=' ∨ c = '~' ∨ c = '!') :
    isWordChar c = false := by
  rcases h with rfl | rfl | rfl <;> decide

theorem opChar_not_space {c : Char} (h : c = '=' ∨ c = '~' ∨ c = '!') :
    isSpaceChar c = false := by
  rcases h with rfl | rfl | rfl <;> decide

/-- Does the segment end (after optional trailing spaces) with an operator
preceded (after further optional spaces) by a word character — or by the
segment start while the text before the segment ends in a reachable word
character (`pw`)? -/
def opTailAt (pw : Bool) (seg : List Char) : Bool :=
  validOps.any (fun op =>
    charsPre op.reverse (seg.reverse.dropWhile isSpaceChar) &&
      (match (((seg.reverse.dropWhile isSpaceChar).drop op.length).dropWhile
          isSpaceChar).head? with
       | some c => isWordChar c
       | none => pw))

/-- Safety of a segment directly before a generic occurrence. -/
def notOpTail (pw : Bool) (seg : List Char) : Bool := !opTailAt pw seg

theorem dropWhile_append_of_all {p : Char → Bool} :
    ∀ {x : List Char} (y : List Char), (∀ c ∈ x, p c = true) →
      (x ++ y).dropWhile p = y.dropWhile p := by
  intro x
  induction x with
  | nil => intro y _; rfl
  | cons c rest ih =>
    intro y h
    show ((c :: (rest ++ y)).dropWhile p) = _
    rw [List.dropWhile_cons, if_pos (h c (List.mem_cons_self _ _))]
    exact ih y (fun c2 h2 => h c2 (List.mem_cons_of_mem _ h2))

theorem dropWhile_all_nil {p : Char → Bool} :
    ∀ {x : List Char}, (∀ c ∈ x, p c = true) → x.dropWhile p = [] := by
  intro x
  induction x with
  | nil => intro _; rfl
  | cons c rest ih =>
    intro h
    rw [List.dropWhile_cons, if_pos (h c (List.mem_cons_self _ _))]
    exact ih (fun c2 h2 => h c2 (List.mem_cons_of_mem _ h2))

theorem dropWhile_cons_neg {p : Char → Bool} {c : Char} (t : List Char)
    (h : p c = false) : (c :: t).dropWhile p = c :: t := by
  rw [List.dropWhile_cons, h]
  rfl

/-- The two danger shapes excluded by `notOpTail`: an operator-tailed
segment before a variable would let the label-value pattern capture the
variable as a value. -/
theorem notOpTail_spec {pw : Bool} {seg : List Char} (h : notOpTail pw seg = true)
    {s1 o s2 : List Char} (ho : o ∈ validOps)
    (hs1 : ∀ c ∈ s1, isSpaceChar c = true) (hs2 : ∀ c ∈ s2, isSpaceChar c = true) :
    (∀ a w, seg = a ++ w :: (s1 ++ (o ++ s2)) → isWordChar w = true → False) ∧
      (seg = s1 ++ (o ++ s2) → pw = true → False) := by
  obtain ⟨hone, hochars⟩ := validOps_spec ho
  have honil : o.reverse ≠ [] := by
    intro hEq
    exact hone (by simpa using congrArg List.reverse hEq)
  have hoheadne : ∀ t : List Char, o.reverse = [] ∨
      ((o.reverse ++ t).dropWhile isSpaceChar = o.reverse ++ t) := by
    intro t
    cases hrev : o.reverse with
    | nil => exact Or.inl rfl
    | cons c cs =>
      right
      have hc : c ∈ o := by
        have : c ∈ o.reverse := by rw [hrev]; exact List.mem_cons_self _ _
        exact List.mem_reverse.mp this
      rw [List.cons_append]
      exact dropWhile_cons_neg _ (opChar_not_space (hochars c hc))
  constructor
  · intro a w hseg hw
    have hr : seg.reverse = s2.reverse ++ (o.reverse ++ (s1.reverse ++ (w :: a.reverse))) := by
      rw [hseg]
      simp [List.reverse_append, List.reverse_cons]
    have hr1 : seg.reverse.dropWhile isSpaceChar = o.reverse ++ (s1.reverse ++ (w :: a.reverse)) := by
      rw [hr, dropWhile_append_of_all _ (fun c hc => hs2 c (List.mem_reverse.mp hc))]
      rcases hoheadne (s1.reverse ++ (w :: a.reverse)) with h1 | h2
      · exact absurd h1 honil
      · exact h2
    have hfail : opTailAt pw seg = true := by
      unfold opTailAt
      rw [List.any_eq_true]
      refine ⟨o, ho, ?_⟩
      rw [Bool.and_eq_true]
      constructor
      · rw [hr1]
        exact charsPre_self_append _ _
      · rw [hr1]
        have hdrop : (o.reverse ++ (s1.reverse ++ (w :: a.reverse))).drop o.length =
            s1.reverse ++ (w :: a.reverse) := by
          have : o.length = o.reverse.length := (List.length_reverse o).symm
          rw [this]
          exact List.drop_left _ _
        rw [hdrop,
          dropWhile_append_of_all _ (fun c hc => hs1 c (List.mem_reverse.mp hc)),
          dropWhile_cons_neg _ (word_not_space hw)]
        simp [hw]
    unfold notOpTail at h
    rw [hfail] at h
    cases h
  · intro hseg hpw
    have hr : seg.reverse = s2.reverse ++ (o.reverse ++ s1.reverse) := by
      rw [hseg]
      simp [List.reverse_append]
    have hr1 : seg.reverse.dropWhile isSpaceChar = o.reverse ++ s1.reverse := by
      rw [hr, dropWhile_append_of_all _ (fun c hc => hs2 c (List.mem_reverse.mp hc))]
      rcases hoheadne s1.reverse with h1 | h2
      · exact absurd h1 honil
      · exact h2
    have hfail : opTailAt pw seg = true := by
      unfold opTailAt
      rw [List.any_eq_true]
      refine ⟨o, ho, ?_⟩
      rw [Bool.and_eq_true]
      constructor
      · rw [hr1]
        exact charsPre_self_append _ _
      · rw [hr1]
        have hdrop : (o.reverse ++ s1.reverse).drop o.length = s1.reverse := by
          have : o.length = o.reverse.length := (List.length_reverse o).symm
          rw [this]
          exact List.drop_left _ _
        rw [hdrop, dropWhile_all_nil (fun c hc => hs1 c (List.mem_reverse.mp hc))]
        simp [hpw]
    unfold notOpTail at h
    rw [hfail] at h
    cases h

/-- Does the item's text end with a word character that a later scan
window can start from? -/
def endsWord : GItem → Bool
  | GItem.gvar (VarTok.word _) => true
  | _ => false

/-- Constraints on the segment that follows an item. -/
def segAfterOK : GItem → List Char → Bool
  | GItem.gvar _, seg =>
    match seg.head? with
    | some c => !isWordChar c
    | none => false
  | GItem.gdur _, seg => !seg.isEmpty
  | GItem.glv _ _ q _, seg =>
    if q then !seg.isEmpty
    else
      match seg.head? with
      | some c => c == ' ' || c == ',' || c == '}'
      | none => false

/-- Constraints on the segment that precedes an item. -/
def segBeforeOK (pw : Bool) : GItem → List Char → Bool
  | GItem.gvar _, seg =>
    notOpTail pw seg && !(seg.getLast? == some '[') &&
      (match seg.getLast? with
       | some c => !c.isDigit
       | none => true)
  | GItem.gdur _, seg => true
  | GItem.glv _ _ _ _, seg =>
    match seg.getLast? with
    | some c => !isWordChar c
    | none => !pw

/-- Well-formed item. -/
def gItemOK : GItem → Bool
  | GItem.gvar tok => gTokOK tok
  | GItem.gdur tok => gTokOK tok
  | GItem.glv n _ _ tok => gNameOK n && gTokOK tok

/-- Well-formed segment body. -/
def gSegOK (seg : List Char) : Bool := seg.all gSegChar && digitRunsLe 3 seg

/-- The chained conditions along the item list: each item checks the
segment before it (the previous item's segment, or the query prefix) and
the segment after it. -/
def gChain (pw : Bool) (pre : List Char) : List (GItem × List Char) → Bool
  | [] => true
  | (it, seg) :: rest =>
    segBeforeOK pw it pre && gItemOK it && gSegOK seg && segAfterOK it seg &&
      gChain (endsWord it) seg rest

/-- The restore class of an item's variable: duration/generic (0), quoted
label value (1), bare label value (2). -/
def gClassOf : GItem → Nat
  | GItem.gvar _ => 0
  | GItem.gdur _ => 0
  | GItem.glv _ _ q _ => if q then 1 else 2

/-- Class separation: two occurrences of the same variable text always sit
in the same restore class. -/
def gSep (items : List (GItem × List Char)) : Bool :=
  items.all (fun it1 => items.all (fun it2 =>
    !(varText (gTok it1.1) == varText (gTok it2.1)) || (gClassOf it1.1 == gClassOf it2.1)))

/-- The extended safe class of the round-trip claim. -/
def SafeGQuery (q : GQuery) : Bool :=
  gSegOK q.pre && gChain false q.pre q.items && gSep q.items &&
    decide (q.items.length ≤ 10000)

theorem gSegChar_spec {c : Char} (h : gSegChar c = true) : c ≠ '$' ∧ c ≠ '"' := by
  unfold gSegChar at h
  simp only [Bool.and_eq_true, Bool.not_eq_true', beq_eq_false_iff_ne, ne_eq] at h
  exact h

theorem gInnerChar_spec {c : Char} (h : gInnerChar c = true) :
    c ≠ '}' ∧ c ≠ '$' ∧ c ≠ '"' := by
  unfold gInnerChar at h
  simp only [Bool.and_eq_true, Bool.not_eq_true', beq_eq_false_iff_ne, ne_eq] at h
  exact ⟨h.1.1, h.1.2, h.2⟩

theorem wordChar_ne {c : Char} (h : isWordChar c = true) :
    c ≠ '$' ∧ c ≠ '"' ∧ c ≠ '[' ∧ c ≠ ']' ∧ c ≠ '{' ∧ c ≠ '}' ∧ c ≠ '=' ∧ c ≠ '!' ∧
      c ≠ '~' := by
  refine ⟨?_, ?_, ?_, ?_, ?_, ?_, ?_, ?_, ?_⟩ <;>
    (intro hEq; subst hEq; exact absurd h (by decide))


/-! ## Anatomy of a label-value match: every match is a word run, spaces,
an operator, spaces, then a variable value starting with `$` or `"$`. -/

theorem opCandidates_mem {l op rem : List Char} (h : (op, rem) ∈ opCandidates l) :
    l = op ++ rem ∧ op ∈ validOps := by
  unfold opCandidates at h
  by_cases h1 : l.head? = some '='
  · rw [if_pos h1] at h
    cases l with
    | nil => simp at h1
    | cons c t =>
      have hc : c = '=' := by simpa using h1
      subst hc
      by_cases h2 : t.head? = some '~'
      · rw [if_pos (by simpa using h2)] at h
        cases t with
        | nil => simp at h2
        | cons c2 t2 =>
          have hc2 : c2 = '~' := by simpa using h2
          subst hc2
          simp only [List.tail_cons, List.mem_cons, List.not_mem_nil, or_false,
            Prod.mk.injEq] at h
          rcases h with ⟨rfl, rfl⟩ | ⟨rfl, rfl⟩
          · exact ⟨rfl, by simp [validOps]⟩
          · exact ⟨rfl, by simp [validOps]⟩
      · rw [if_neg (by simpa using h2)] at h
        simp only [List.tail_cons, List.mem_cons, List.not_mem_nil, or_false,
          Prod.mk.injEq] at h
        obtain ⟨rfl, rfl⟩ := h
        exact ⟨rfl, by simp [validOps]⟩
  · rw [if_neg h1] at h
    by_cases h2 : l.head? = some '!'
    · rw [if_pos h2] at h
      cases l with
      | nil => simp at h2
      | cons c t =>
        have hc : c = '!' := by simpa using h2
        subst hc
        by_cases h3 : t.head? = some '='
        · rw [if_pos (by simpa using h3)] at h
          cases t with
          | nil => simp at h3
          | cons c2 t2 =>
            have hc2 : c2 = '=' := by simpa using h3
            subst hc2
            by_cases h4 : t2.head? = some '~'
            · rw [if_pos (by simpa using h4)] at h
              cases t2 with
              | nil => simp at h4
              | cons c3 t3 =>
                have hc3 : c3 = '~' := by simpa using h4
                subst hc3
                simp only [List.tail_cons, List.mem_cons, List.not_mem_nil, or_false,
                  Prod.mk.injEq] at h
                rcases h with ⟨rfl, rfl⟩ | ⟨rfl, rfl⟩ | ⟨rfl, rfl⟩
                · exact ⟨rfl, by simp [validOps]⟩
                · exact ⟨rfl, by simp [validOps]⟩
                · exact ⟨rfl, by simp [validOps]⟩
            · rw [if_neg (by simpa using h4)] at h
              simp only [List.tail_cons, List.mem_cons, List.not_mem_nil, or_false,
                Prod.mk.injEq] at h
              rcases h with ⟨rfl, rfl⟩ | ⟨rfl, rfl⟩
              · exact ⟨rfl, by simp [validOps]⟩
              · exact ⟨rfl, by simp [validOps]⟩
        · rw [if_neg (by simpa using h3)] at h
          by_cases h4 : t.head? = some '~'
          · rw [if_pos (by simpa using h4)] at h
            cases t with
            | nil => simp at h4
            | cons c2 t2 =>
              have hc2 : c2 = '~' := by simpa using h4
              subst hc2
              simp only [List.tail_cons, List.mem_cons, List.not_mem_nil, or_false,
                Prod.mk.injEq] at h
              rcases h with ⟨rfl, rfl⟩ | ⟨rfl, rfl⟩
              · exact ⟨rfl, by simp [validOps]⟩
              · exact ⟨rfl, by simp [validOps]⟩
          · rw [if_neg (by simpa using h4)] at h
            simp only [List.tail_cons, List.mem_cons, List.not_mem_nil, or_false,
              Prod.mk.injEq] at h
            obtain ⟨rfl, rfl⟩ := h
            exact ⟨rfl, by simp [validOps]⟩
    · rw [if_neg h2] at h
      simp at h

/-- A variable match needs a leading `$`. -/
theorem matchVar_some_head {l : List Char} {p : List Char × List Char}
    (h : matchVar l = some p) : l.head? = some '$' := by
  unfold matchVar at h
  by_cases hd : l.head? = some '$'
  · exact hd
  · rw [if_neg hd] at h
    cases h

/-- The value step of the label-value pattern starts at `$` or at `"`
directly followed by `$`. -/
theorem tryLabelValueVar_head {av : List Char} {m : List Char} {q : Bool}
    {sfx : Option Char} {rest : List Char}
    (h : tryLabelValueVar av = some (m, q, sfx, rest)) :
    av.head? = some '$' ∨ (av.head? = some '"' ∧ av.tail.head? = some '$') := by
  unfold tryLabelValueVar at h
  match hq : tryQuotedValueVar av with
  | some v =>
    rw [hq] at h
    unfold tryQuotedValueVar at hq
    by_cases hh : av.head? = some '"'
    · rw [if_pos hh] at hq
      match hm : matchVar av.tail with
      | some (m2, r2) =>
        right
        exact ⟨hh, matchVar_some_head hm⟩
      | none => rw [hm] at hq; cases hq
    · rw [if_neg hh] at hq
      cases hq
  | none =>
    rw [hq] at h
    dsimp only at h
    unfold tryBareValueVar at h
    match hm : matchVar av with
    | some (m2, r2) =>
      left
      exact matchVar_some_head hm
    | none => rw [hm] at h; cases h

theorem mem_takeWhile {p : Char → Bool} :
    ∀ {l : List Char} {c : Char}, c ∈ l.takeWhile p → p c = true := by
  intro l
  induction l with
  | nil => intro c h; simp [List.takeWhile] at h
  | cons a rest ih =>
    intro c h
    rw [List.takeWhile_cons] at h
    by_cases ha : p a
    · rw [if_pos ha] at h
      rcases List.mem_cons.mp h with rfl | hm
      · exact ha
      · exact ih hm
    · rw [if_neg ha] at h
      cases h

/-- Shape of a successful label-value match. -/
theorem matchLabelValue_shape {l : List Char} {pr : LVParts} {rest : List Char}
    (h : matchLabelValue l = some (pr, rest)) :
    ∃ (w s1 o s2 v : List Char),
      l = w ++ (s1 ++ (o ++ (s2 ++ v))) ∧ w ≠ [] ∧
      (∀ c ∈ w, isWordChar c = true) ∧
      (∀ c ∈ (s1 ++ (o ++ (s2 ++ v))).head?, ¬(isWordChar c = true)) ∧
      (∀ c ∈ s1, isSpaceChar c = true) ∧ (∀ c ∈ s2, isSpaceChar c = true) ∧
      o ∈ validOps ∧
      (v.head? = some '$' ∨ (v.head? = some '"' ∧ v.tail.head? = some '$')) := by
  unfold matchLabelValue at h
  by_cases hn : (spanWord l).1.length = 0
  · rw [if_pos hn] at h; cases h
  · rw [if_neg hn] at h
    obtain ⟨heq, hword, hbound⟩ := spanWord_spec l
    obtain ⟨opr, hmem, hf⟩ := firstSome_eq_some h
    match htv : tryLabelValueVar (opr.2.dropWhile isSpaceChar) with
    | some (m, qq, sfx, rest2) =>
      obtain ⟨hsplit, hops⟩ := opCandidates_mem (show (opr.1, opr.2) ∈ _ from hmem)
      have h2 : (spanWord l).2 = (spanWord l).2.takeWhile isSpaceChar ++
          (opr.1 ++ (opr.2.takeWhile isSpaceChar ++ opr.2.dropWhile isSpaceChar)) := by
        rw [List.takeWhile_append_dropWhile, ← hsplit, List.takeWhile_append_dropWhile]
      refine ⟨(spanWord l).1, (spanWord l).2.takeWhile isSpaceChar, opr.1,
        opr.2.takeWhile isSpaceChar, opr.2.dropWhile isSpaceChar, ?_, ?_, hword, ?_, ?_, ?_,
        hops, tryLabelValueVar_head htv⟩
      · exact heq.trans (congrArg (fun x => (spanWord l).1 ++ x) h2)
      · intro hEq
        rw [hEq] at hn
        exact hn rfl
      · intro c hc
        rw [← h2] at hc
        exact hbound c hc
      · intro c hc
        exact mem_takeWhile hc
      · intro c hc
        exact mem_takeWhile hc
    | none => rw [htv] at hf; cases hf

/-- A match cannot start at a non-word character. -/
theorem matchLabelValue_none_head {l : List Char}
    (h : ∀ c ∈ l.head?, ¬(isWordChar c = true)) : matchLabelValue l = none := by
  unfold matchLabelValue
  rw [if_pos ?hz]
  case hz =>
    cases l with
    | nil => rfl
    | cons c t =>
      have := h c rfl
      unfold spanWord
      rw [if_neg this]
      rfl

theorem word_not_op {c : Char} (h : isWordChar c = true) : isOpChar c = false := by
  cases ho : isOpChar c with
  | false => rfl
  | true =>
    exfalso
    unfold isOpChar at ho
    simp only [Bool.or_eq_true, beq_iff_eq] at ho
    rcases ho with (rfl | rfl) | rfl <;> exact absurd h (by decide)

theorem validOps_opChar {o : List Char} (ho : o ∈ validOps) :
    ∀ c ∈ o, isOpChar c = true := by
  intro c hc
  obtain ⟨-, hchars⟩ := validOps_spec ho
  unfold isOpChar
  rcases hchars c hc with rfl | rfl | rfl <;> decide

/-- Master window lemma: a match inside a `$`- and `"`-free window `v`
continued by `t` consumes all of `v` into its pre-value part, which
extends into `t` by a run of word/space/operator characters up to a value
starting at `$` or `"`. -/
theorem matchLV_window {v t : List Char} {pr : LVParts} {rest : List Char}
    (hm : matchLabelValue (v ++ t) = some (pr, rest))
    (hv : ∀ c ∈ v, c ≠ '$' ∧ c ≠ '"') :
    ∃ w s1 o s2 m t2,
      w ≠ [] ∧ (∀ c ∈ w, isWordChar c = true) ∧ (∀ c ∈ s1, isSpaceChar c = true) ∧
      (∀ c ∈ s2, isSpaceChar c = true) ∧ o ∈ validOps ∧
      (∀ c ∈ (s1 ++ (o ++ s2)).head?, ¬(isWordChar c = true)) ∧
      v ++ m = w ++ (s1 ++ (o ++ s2)) ∧
      (∀ c ∈ m, matchPreChar c = true) ∧
      t = m ++ t2 ∧ (t2.head? = some '$' ∨ t2.head? = some '"') := by
  obtain ⟨w, s1, o, s2, vv, hl, hw, hword, hhead, hs1, hs2, ho, hvv⟩ :=
    matchLabelValue_shape hm
  have hP : v ++ t = (w ++ (s1 ++ (o ++ s2))) ++ vv := by
    rw [hl]
    simp [List.append_assoc]
  have hvvne : vv ≠ [] := by
    rcases hvv with h1 | ⟨h1, -⟩ <;>
      (intro hEq; rw [hEq] at h1; cases h1)
  have hvvhead : vv.head? = some '$' ∨ vv.head? = some '"' := by
    rcases hvv with h1 | ⟨h1, -⟩
    · exact Or.inl h1
    · exact Or.inr h1
  by_cases hle : v.length ≤ (w ++ (s1 ++ (o ++ s2))).length
  · obtain ⟨m, hm1, hm2⟩ := append_eq_append_of_le hP hle
    refine ⟨w, s1, o, s2, m, vv, hw, hword, hs1, hs2, ho, ?_, hm1.symm, ?_, hm2, hvvhead⟩
    · intro c hc
      have : (s1 ++ (o ++ (s2 ++ vv))).head? = (s1 ++ (o ++ s2)).head? := by
        cases s1 with
        | nil =>
          obtain ⟨hone, -⟩ := validOps_spec ho
          cases o with
          | nil => exact absurd rfl hone
          | cons a as => rfl
        | cons a as => rfl
      rw [← this] at hc
      exact hhead c hc
    · intro c hc
      have hcm : c ∈ w ++ (s1 ++ (o ++ s2)) := by
        rw [hm1]
        exact List.mem_append_right _ hc
      unfold matchPreChar
      rcases List.mem_append.mp hcm with h1 | h2
      · rw [hword c h1]
        rfl
      · rcases List.mem_append.mp h2 with h3 | h4
        · rw [hs1 c h3]
          simp
        · rcases List.mem_append.mp h4 with h5 | h6
          · rw [validOps_opChar ho c h5]
            simp
          · rw [hs2 c h6]
            simp
  · exfalso
    obtain ⟨m2, hm1, hm2⟩ := append_eq_append_of_le hP.symm (by omega)
    have hm2ne : m2 ≠ [] := by
      intro hEq
      rw [hEq, List.append_nil] at hm1
      rw [← hm1] at hle
      exact hle (Nat.le_refl _)
    cases m2 with
    | nil => exact absurd rfl hm2ne
    | cons c m3 =>
      have hcv : c ∈ v := by
        rw [hm1]
        exact List.mem_append_right _ (List.mem_cons_self _ _)
      have hch : vv.head? = some c := by rw [hm2]; rfl
      rcases hvvhead with h1 | h1
      · rw [hch] at h1
        simp only [Option.some.injEq] at h1
        exact (hv c hcv).1 h1
      · rw [hch] at h1
        simp only [Option.some.injEq] at h1
        exact (hv c hcv).2 h1

end CosTool
